import Mathlib

/-!
Verification development for the searus search library (Rust).

This file gives a shallow embedding, in Lean 4, of the parts of the
library that the specification claims talk about:

* the tag-relationship-tree expander and the tagged searcher
  (src/searchers/tagged.rs),
* the BM25 scorer (src/searchers/bm25.rs),
* the tokenizer (src/searchers/tokenizer.rs),
* the filter-expression evaluator (src/filter.rs),
* the semantic searcher (src/searchers/semantic.rs),
* the normalization, merge, sort and pagination steps of the engine
  (src/engine.rs).

Modelling conventions, used consistently below:

* Rust f32 values are modelled as exact rationals.  None of the claims
  under study depends on rounding; where IEEE special values (division
  by zero, infinities, NaN) are essential -- the BM25 scorer -- a small
  IEEE-style number type FP32 with infinities and NaN wrapping exact
  rationals is used instead, and its operations follow the IEEE rules
  for special operands.
* Rust HashMap and HashSet values are modelled as association lists
  (insertion ordered) and membership lists.  Where the Rust code
  iterates a HashMap in its unspecified order and that order is
  observable (HashMap::into_values in the merge step of the engine),
  the theorems quantify over an arbitrary permutation of the list.
* String::to_lowercase is modelled character-wise for ASCII input
  (lcStr below); all tags and terms in the claims are ASCII.
* The sequential (non "parallel" feature) code paths are embedded.
* Rust natural-number casts (usize as f32) become Nat coercions to the
  rationals.
-/

/-! ## Basic string utilities -/

/-- ASCII lowercase of one character; model of the character-wise effect of
Rust String::to_lowercase on ASCII text. -/
def lcChar (c : Char) : Char :=
  if c.isUpper then Char.ofNat (c.toNat + 32) else c

/-- ASCII-faithful model of Rust String::to_lowercase. -/
def lcStr (s : String) : String :=
  ⟨s.data.map lcChar⟩

/-- Association-list lookup, the model of HashMap::get.  Keys are compared
with decidable equality, first binding wins. -/
def assocFind {κ β : Type} [DecidableEq κ] : List (κ × β) → κ → Option β
  | [], _ => none
  | (k, v) :: rest, key => if k = key then some v else assocFind rest key

/-- Insert-or-replace for an association list, the model of
HashMap::insert: an existing binding for the key is overwritten in place,
a new key is appended. -/
def assocInsert {κ β : Type} [DecidableEq κ] : List (κ × β) → κ → β → List (κ × β)
  | [], key, v => [(key, v)]
  | (k, w) :: rest, key, v =>
    if k = key then (k, v) :: rest else (k, w) :: assocInsert rest key v

/-- The entry(k).and_modify(max).or_insert(v) pattern of expand_tags:
take the maximum with an existing binding, or append a new binding. -/
def upsertMax : List (String × ℚ) → String → ℚ → List (String × ℚ)
  | [], key, v => [(key, v)]
  | (k, w) :: rest, key, v =>
    if k = key then (k, max w v) :: rest else (k, w) :: upsertMax rest key v

/-! ## Tag relationship tree (src/searchers/tagged.rs)

A TagRelationshipTree is the map tag -> (related tag -> strength).
TagRelationshipTree::new inserts each node keyed by node.tag verbatim
(NOT lowercased), which the case-sensitivity theorems below depend on.
The tree is modelled as an association list of nodes, each node an
association list of weighted edges. -/

/-- The nodes field of TagRelationshipTree: tag -> (related tag -> strength). -/
abbrev TRT : Type := List (String × List (String × ℚ))

/-- processEdges embeds the inner for-loop of expand_tags over the
relationships of the current tag: for every edge, lowercase the related
tag, compute the propagated strength, update the expanded map with the
maximum, and enqueue the related tag at depth + 1 unless already visited.
The queue entries are (tag, depth, strength) triples and new entries are
pushed to the back, as with VecDeque::push_back. -/
def processEdges (depth : ℕ) (strength : ℚ) :
    List (String × ℚ) → List (String × ℚ) → List String → List (String × ℕ × ℚ) →
    List (String × ℚ) × List String × List (String × ℕ × ℚ)
  | [], expanded, visited, queue => (expanded, visited, queue)
  | (rt, es) :: rest, expanded, visited, queue =>
    let rtl := lcStr rt
    let ns := strength * es
    let expanded2 := upsertMax expanded rtl ns
    if visited.contains rtl then
      processEdges depth strength rest expanded2 visited queue
    else
      processEdges depth strength rest expanded2 (rtl :: visited)
        (queue ++ [(rtl, depth + 1, ns)])

/-- The while-let pop_front loop of expand_tags, embedded with explicit
fuel (each iteration consumes one unit; trtFuel below is proved
sufficient, see the fuel-irrelevance lemma used by claim C9).  Entries
whose depth has reached max_depth are skipped; otherwise the current
tag is looked up in the tree and its edges are processed. -/
def bfsLoop (nodes : TRT) (maxDepth : ℕ) :
    ℕ → List (String × ℕ × ℚ) → List String → List (String × ℚ) → List (String × ℚ)
  | 0, _, _, expanded => expanded
  | _ + 1, [], _, expanded => expanded
  | fuel + 1, (t, d, s) :: qs, visited, expanded =>
    if maxDepth ≤ d then bfsLoop nodes maxDepth fuel qs visited expanded
    else
      match assocFind nodes t with
      | none => bfsLoop nodes maxDepth fuel qs visited expanded
      | some edges =>
        let st := processEdges d s edges expanded visited qs
        bfsLoop nodes maxDepth fuel st.2.2 st.2.1 st.1

/-- All lowercased related tags occurring in the tree, deduplicated;
only these can ever be enqueued by the traversal. -/
def allRelatedLower (nodes : TRT) : List String :=
  (nodes.flatMap (fun node => node.2.map (fun e => lcStr e.1))).dedup

/-- Fuel sufficient for the traversal started from one query tag: one
unit for the seed entry plus one per distinct enqueueable tag, plus one
final unit to observe the empty queue. -/
def trtFuel (nodes : TRT) : ℕ :=
  (allRelatedLower nodes).length + 2

/-- TagRelationshipTree::expand_tags.  Seeds every query tag (lowercased)
at strength 1.0; when max_depth is zero or the tree is empty returns the
seed map; otherwise runs one breadth-first traversal per query tag, all
traversals sharing the expanded map but each with its own visited set
and queue. -/
def expandTags (nodes : TRT) (queryTags : List String) (maxDepth : ℕ) :
    List (String × ℚ) :=
  let seeds := queryTags.foldl (fun acc tag => assocInsert acc (lcStr tag) 1) []
  if maxDepth = 0 ∨ nodes = [] then seeds
  else
    queryTags.foldl
      (fun expanded qt =>
        let qtl := lcStr qt
        bfsLoop nodes maxDepth (trtFuel nodes) [(qtl, 0, 1)] [qtl] expanded)
      seeds

/-! ## Records as dynamic attribute trees

Records are opaque to the core and inspected through serde_json
serialization; following the record contract of the spec (section 6),
a record is modelled directly as its JSON-like attribute tree. -/

/-- JSON-like attribute tree (serde_json::Value). -/
inductive J where
  | null : J
  | jbool : Bool → J
  | jnum : ℚ → J
  | jstr : String → J
  | jarr : List J → J
  | jobj : List (String × J) → J

/-- Value::get on an object key; None on any other shape. -/
def J.getKey : J → String → Option J
  | .jobj fields, key => assocFind fields key
  | _, _ => none

/-! ## Filter expressions (src/filter.rs) -/

/-- The comparison operators of filter expressions. -/
inductive CompareOp where
  | eq | ne | lt | le | gt | ge | contains
deriving DecidableEq

/-- The value types of filter expressions; Number(f64) is modelled as an
exact rational. -/
inductive FilterValue where
  | str : String → FilterValue
  | num : ℚ → FilterValue
  | bool : Bool → FilterValue

/-- The filter expression AST. -/
inductive FilterExpr where
  | compare (field : String) (op : CompareOp) (value : FilterValue)
  | and (exprs : List FilterExpr)
  | or (exprs : List FilterExpr)
  | not (expr : FilterExpr)

/-- Split a dot-separated path into its segments (str::split with
separator dot; empty segments are kept, as in Rust). -/
def splitDots : List Char → List Char → List String
  | [], cur => [⟨cur.reverse⟩]
  | c :: rest, cur =>
    if c = '.' then (⟨cur.reverse⟩ : String) :: splitDots rest []
    else splitDots rest (c :: cur)

/-- Walk a segment list through nested objects; None when a segment is
missing. -/
def getPath : J → List String → Option J
  | v, [] => some v
  | v, p :: ps =>
    match v.getKey p with
    | none => none
    | some v2 => getPath v2 ps

/-- get_field_value: navigate a dot-separated path through nested
objects. -/
def getFieldValue (item : J) (path : String) : Option J :=
  getPath item (splitDots path.data [])

/-- compare_ord for an order with decidable equality and strict order;
the Rust greater / greater-equal cases test the flipped strict order,
as PartialOrd does for a total order. -/
def compareOrdB {α : Type} [DecidableEq α] [LT α]
    [DecidableRel ((· < ·) : α → α → Prop)] (a : α) (op : CompareOp) (b : α) : Bool :=
  match op with
  | .eq => decide (a = b)
  | .ne => decide (a ≠ b)
  | .lt => decide (a < b)
  | .le => !(decide (b < a))
  | .gt => decide (b < a)
  | .ge => !(decide (a < b))
  | .contains => false

/-- listStarts needle hay: needle is an initial segment of hay. -/
def listStarts : List Char → List Char → Bool
  | [], _ => true
  | _ :: _, [] => false
  | a :: as, b :: bs => a == b && listStarts as bs

/-- listHasInfix needle hay: needle occurs contiguously in hay. -/
def listHasInfix (needle : List Char) : List Char → Bool
  | [] => needle.isEmpty
  | hay@(_ :: rest) => listStarts needle hay || listHasInfix needle rest

/-- Rust str::contains (substring test). -/
def strContains (s t : String) : Bool := listHasInfix t.data s.data

/-- compare_values: the arm-by-arm translation of the Rust match,
including the case-insensitive substring rule for Contains on strings
and the element-equality rule for Contains on arrays. -/
def compareValues (fieldValue : Option J) (op : CompareOp)
    (target : FilterValue) : Bool :=
  match fieldValue with
  | none => false
  | some fv =>
    match fv, target with
    | .jstr s, .str t =>
      if op = .contains then strContains (lcStr s) (lcStr t)
      else compareOrdB s op t
    | .jnum n, .num t => compareOrdB n op t
    | .jbool b, .bool t =>
      match op with
      | .eq => b == t
      | .ne => b != t
      | _ => false
    | .jarr arr, tgt =>
      match op with
      | .contains =>
        arr.any (fun elem =>
          match elem, tgt with
          | .jstr s, .str t => s == t
          | .jnum n, .num t => n == t
          | .jbool b, .bool t => b == t
          | _, _ => false)
      | _ => false
    | _, _ => false

mutual

/-- FilterExpr::evaluate on a record (already an attribute tree). -/
def FilterExpr.evaluate : FilterExpr → J → Bool
  | .compare field op value, item => compareValues (getFieldValue item field) op value
  | .and exprs, item => FilterExpr.evalAll exprs item
  | .or exprs, item => FilterExpr.evalAny exprs item
  | .not expr, item => !(expr.evaluate item)

/-- iter().all over the subexpressions of And. -/
def FilterExpr.evalAll : List FilterExpr → J → Bool
  | [], _ => true
  | e :: es, item => e.evaluate item && FilterExpr.evalAll es item

/-- iter().any over the subexpressions of Or. -/
def FilterExpr.evalAny : List FilterExpr → J → Bool
  | [], _ => false
  | e :: es, item => e.evaluate item || FilterExpr.evalAny es item

end

/-! ## Queries and options (src/types.rs) -/

/-- The closed enumeration of searcher kinds. -/
inductive SearcherKind where
  | semantic | vector | tags | image | fuzzy | range | geospatial | custom
deriving DecidableEq

/-- SearchOptions.  The trt_depth field is used by
TaggedSearch::match_entity (src/searchers/tagged.rs line 289) but its
declaration is absent from the types module under src; it is modelled
from the spec: trt_depth: Option usize, 0 meaning no expansion. -/
structure SearchOptions where
  skip : ℕ := 0
  limit : ℕ := 20
  timeoutMs : ℕ := 0
  weights : List (SearcherKind × ℚ) := []
  trtDepth : Option ℕ := none

/-- A query; the vector and image components are omitted because no
embedded searcher reads them. -/
structure Query where
  text : Option String := none
  tags : Option (List String) := none
  filters : Option FilterExpr := none
  options : SearchOptions := {}

/-! ## Stable sort by comparator

Rust slice::sort_by is a stable sort: the output has cmp a b not
Greater for consecutive elements, and elements comparing Equal keep
their input order.  Any stable sort has the same output; it is embedded
as a stable insertion sort.  All the searchers and the engine sort with
the comparator compare(b.score, a.score) (descending). -/

/-- Stable insertion of one element: x passes over elements it compares
Greater to and lands before the first element it does not. -/
def insertCmp {α : Type} (cmp : α → α → Ordering) (x : α) : List α → List α
  | [] => [x]
  | y :: ys => if cmp x y = Ordering.gt then y :: insertCmp cmp x ys else x :: y :: ys

/-- Stable sort by comparator (model of slice::sort_by). -/
def sortByCmp {α : Type} (cmp : α → α → Ordering) : List α → List α
  | [] => []
  | x :: xs => insertCmp cmp x (sortByCmp cmp xs)

/-! ## Tagged searcher (src/searchers/tagged.rs) -/

/-- The Tag variant of SearchDetail. -/
structure TagDetail where
  matchedTags : List String
  totalTags : ℕ
deriving DecidableEq

/-- A tagged-search match: SearusMatch with a Tag detail list. -/
structure SearusMatchT where
  item : J
  score : ℚ
  fieldScores : List (String × ℚ) := []
  details : List TagDetail := []
  id : ℕ

/-- TaggedSearch::extract_tags: the configured field must hold an array;
its string elements are kept, everything else is dropped. -/
def extractTags (item : J) (field : String) : List String :=
  match item.getKey field with
  | some (.jarr xs) => xs.filterMap (fun v => match v with | .jstr s => some s | _ => none)
  | _ => []

/-- The no-expansion map: each query tag, lowercased, at strength 1.0. -/
def seedOnly (queryTags : List String) : List (String × ℚ) :=
  queryTags.foldl (fun acc t => assocInsert acc (lcStr t) 1) []

/-- The expansion map used by match_entity: expand_tags when a TRT is
configured and trt_depth is a positive depth, otherwise the seed-only
map. -/
def expandedMapFor (trt : Option TRT) (query : Query) (queryTags : List String) :
    List (String × ℚ) :=
  match trt, query.options.trtDepth with
  | some nodes, some depth =>
    if 0 < depth then expandTags nodes queryTags depth else seedOnly queryTags
  | _, _ => seedOnly queryTags

/-- One step of the item-tag matching loop of match_entity: accumulate
(matched tags, total strength, max strength). -/
def tagStep (expandedTags : List (String × ℚ)) (acc : List String × ℚ × ℚ)
    (itemTag : String) : List String × ℚ × ℚ :=
  match assocFind expandedTags (lcStr itemTag) with
  | some strength => (acc.1 ++ [itemTag], acc.2.1 + strength, max acc.2.2 strength)
  | none => acc

/-- TaggedSearch::match_entity.  tagField and trt are the configuration
of the searcher; queryTags is query.tags (already unwrapped by search). -/
def matchEntity (tagField : String) (trt : Option TRT) (item : J) (index : ℕ)
    (query : Query) (queryTags : List String) : Option SearusMatchT :=
  let itemTags := extractTags item tagField
  if itemTags.isEmpty then none
  else
    let expandedTags := expandedMapFor trt query queryTags
    let res := itemTags.foldl (tagStep expandedTags) ([], 0, 0)
    let matchedTags := res.1
    let totalStrength := res.2.1
    if matchedTags.isEmpty then none
    else
      let baseScore := (matchedTags.length : ℚ) / (queryTags.length : ℚ)
      let avgStrength := totalStrength / (matchedTags.length : ℚ)
      some { item := item, score := baseScore * avgStrength,
             details := [⟨matchedTags, itemTags.length⟩], id := index }

/-- TaggedSearch::search (sequential path): empty unless the query has a
non-empty tag list; records failing the filter are dropped before
matching; results are sorted by score descending. -/
def taggedSearch (tagField : String) (trt : Option TRT) (items : List J)
    (query : Query) : List SearusMatchT :=
  match query.tags with
  | none => []
  | some queryTags =>
    if queryTags.isEmpty then []
    else
      let results :=
        (items.enum.filter (fun p =>
          match query.filters with
          | some filters => filters.evaluate p.2
          | none => true)).filterMap
          (fun p => matchEntity tagField trt p.2 p.1 query queryTags)
      sortByCmp (fun a b => compare b.score a.score) results

/-! ## An IEEE-style number model for the BM25 scorer

f32 arithmetic in the BM25 scorer can divide by zero (doc_length /
avg_doc_length when the average document length is 0), so exact
rationals do not model it (in Lean, division of rationals by zero is 0,
in IEEE it is an infinity or NaN).  FP32 wraps an exact rational and
adds the two infinities and NaN; add, mul and div follow the IEEE rules
for special operands.  Finite arithmetic is exact (rounding is not
modelled) and the two IEEE zeros are collapsed into one, which is
positive in sign decisions; the scorer only ever produces non-negative
finite operands, so neither simplification is observable here. -/

/-- IEEE-style f32 value: NaN, a signed infinity (true is positive), or
a finite value modelled as an exact rational. -/
inductive FP32 where
  | nan : FP32
  | inf : Bool → FP32
  | fin : ℚ → FP32
deriving DecidableEq

/-- IEEE addition. -/
def FP32.add : FP32 → FP32 → FP32
  | nan, _ => nan
  | _, nan => nan
  | inf s, inf t => if s = t then inf s else nan
  | inf s, fin _ => inf s
  | fin _, inf t => inf t
  | fin a, fin b => fin (a + b)

/-- IEEE multiplication (0 times an infinity is NaN). -/
def FP32.mul : FP32 → FP32 → FP32
  | nan, _ => nan
  | _, nan => nan
  | inf s, inf t => inf (s = t)
  | inf s, fin a => if a = 0 then nan else if 0 < a then inf s else inf (!s)
  | fin a, inf t => if a = 0 then nan else if 0 < a then inf t else inf (!t)
  | fin a, fin b => fin (a * b)

/-- IEEE division: a nonzero finite value divided by zero is a signed
infinity, zero by zero is NaN, finite by infinite is zero. -/
def FP32.div : FP32 → FP32 → FP32
  | nan, _ => nan
  | _, nan => nan
  | inf _, inf _ => nan
  | inf s, fin a => if 0 ≤ a then inf s else inf (!s)
  | fin _, inf _ => fin 0
  | fin a, fin b =>
    if b = 0 then if a = 0 then nan else if 0 < a then inf true else inf false
    else fin (a / b)

/-- IEEE strict less-than; false whenever NaN is involved. -/
def FP32.ltB : FP32 → FP32 → Bool
  | nan, _ => false
  | _, nan => false
  | inf s, inf t => !s && t
  | inf s, fin _ => !s
  | fin _, inf t => t
  | fin a, fin b => decide (a < b)

/-- f32::partial_cmp: None whenever NaN is involved. -/
def FP32.pcmp : FP32 → FP32 → Option Ordering
  | nan, _ => none
  | _, nan => none
  | inf s, inf t => some (if s = t then Ordering.eq else if s then Ordering.gt else Ordering.lt)
  | inf s, fin _ => some (if s then Ordering.gt else Ordering.lt)
  | fin _, inf t => some (if t then Ordering.lt else Ordering.gt)
  | fin a, fin b => some (compare a b)

/-! ## Tokenizer (src/searchers/tokenizer.rs)

tokenize splits on Unicode word boundaries and lowercases each word;
for the ASCII text of the claims this is: maximal runs of alphanumeric
characters, lowercased. -/

/-- Split a character list into maximal alphanumeric runs; the second
argument accumulates the current run in reverse. -/
def wordsAux : List Char → List Char → List (List Char)
  | [], [] => []
  | [], cur => [cur.reverse]
  | c :: rest, cur =>
    if c.isAlphanum then wordsAux rest (c :: cur)
    else if cur.isEmpty then wordsAux rest [] else cur.reverse :: wordsAux rest []

/-- tokenize: lowercase word tokens (ASCII model of unicode_words). -/
def tokenize (text : String) : List String :=
  (wordsAux text.data []).map (fun w => lcStr ⟨w⟩)

/-- term_frequencies: token -> occurrence count. -/
def termFrequencies (text : String) : List (String × ℕ) :=
  (tokenize text).foldl
    (fun freqs token => assocInsert freqs token ((assocFind freqs token).getD 0 + 1)) []

/-! ## BM25 scorer (src/searchers/bm25.rs)

The natural logarithm is transcendental, so the scorer is parametrised
by the function lg applied at the (always finite, always defined) idf
argument; every theorem about the scorer holds for every lg, and
concrete instances pick a concrete lg. -/

/-- The k1 and b parameters; BM25Scorer::new gives k1 = 1.5, b = 0.75. -/
structure BM25Scorer where
  k1 : ℚ := 1.5
  b : ℚ := 0.75

/-- BM25Scorer::idf: lg((N - df + 0.5) / (df + 0.5) + 1). -/
def bm25Idf (lg : ℚ → ℚ) (docFreq : ℚ) (totalDocs : ℕ) : ℚ :=
  lg (((totalDocs : ℚ) - docFreq + 0.5) / (docFreq + 0.5) + 1)

/-- The normalized term-frequency factor
tf (k1 + 1) / (tf + k1 (1 - b + b (doc_length / avg))), computed in
IEEE arithmetic: when avg = 0 the inner division is a division by
zero. -/
def bm25NormTf (k1 b : ℚ) (tf docLength : ℕ) (avg : ℚ) : FP32 :=
  FP32.div (.fin ((tf : ℚ) * (k1 + 1)))
    (FP32.add (.fin (tf : ℚ))
      (FP32.mul (.fin k1)
        (FP32.add (.fin (1 - b))
          (FP32.mul (.fin b) (FP32.div (.fin (docLength : ℚ)) (.fin avg))))))

/-- The contribution of one query term to the BM25 score: zero when the
term is absent from the document; otherwise idf times the normalized
term frequency, with the document frequency defaulting to 1
(doc_freq.get(term).unwrap_or(&1)). -/
def bm25TermScore (lg : ℚ → ℚ) (k1 b : ℚ) (docTerms : List (String × ℕ))
    (docLength : ℕ) (avg : ℚ) (docFreq : List (String × ℕ)) (totalDocs : ℕ)
    (term : String) : FP32 :=
  let tf := (assocFind docTerms term).getD 0
  if tf = 0 then .fin 0
  else FP32.mul (.fin (bm25Idf lg ((assocFind docFreq term).getD 1 : ℕ) totalDocs))
    (bm25NormTf k1 b tf docLength avg)

/-- BM25Scorer::score: the sum of the per-term contributions. -/
def bm25Score (lg : ℚ → ℚ) (k1 b : ℚ) (queryTerms : List String)
    (docTerms : List (String × ℕ)) (docLength : ℕ) (avg : ℚ)
    (docFreq : List (String × ℕ)) (totalDocs : ℕ) : FP32 :=
  queryTerms.foldl
    (fun acc term =>
      FP32.add acc (bm25TermScore lg k1 b docTerms docLength avg docFreq totalDocs term))
    (.fin 0)

/-! ## Semantic searcher (src/searchers/semantic.rs) -/

/-- The matching strategies of a field rule. -/
inductive Matcher where
  | exact | bm25 | tokenized | fuzzy
deriving DecidableEq

/-- A field rule: matcher, priority (default 1), boost (default 1.0). -/
structure FieldRule where
  matcher : Matcher
  priority : ℕ := 1
  boost : ℚ := 1

/-- Semantic rules; the objects map of the Rust struct is never read by
SemanticSearch::search and is omitted. -/
structure SemanticRules where
  fields : List (String × FieldRule)

/-- get_nested_field: walk the dot-separated path, then render strings,
numbers and booleans to text.  (Non-integer number rendering differs
from Rust in format only; no claim extracts a numeric field.) -/
def getNestedField (value : J) (path : String) : Option String :=
  match getPath value (splitDots path.data []) with
  | some (.jstr s) => some s
  | some (.jnum n) =>
    some (if n.den = 1 then toString n.num else toString n.num ++ "/" ++ toString n.den)
  | some (.jbool b) => some (toString b)
  | _ => none

/-- extract_field: records are already attribute trees, so this is
get_nested_field on the record. -/
def extractField (item : J) (field : String) : Option String :=
  getNestedField item field

/-- Corpus statistics for BM25. -/
structure CorpusStats where
  docFreq : List (String × ℕ)
  avgDocLength : ℚ
  totalDocs : ℕ

/-- calculate_corpus_stats (sequential path).  Per item: over every
configured field that extracts, add the token count to total_length,
bump doc_count, and collect the tokens; then count each distinct
collected token once into doc_freq.  The average is total_length /
doc_count when doc_count is positive, else 0. -/
def calculateCorpusStats (items : List J) (rules : SemanticRules) : CorpusStats :=
  let res := items.foldl
    (fun (acc : List (String × ℕ) × ℕ × ℕ) item =>
      let inner := rules.fields.foldl
        (fun (a : List String × ℕ × ℕ) fr =>
          match extractField item fr.1 with
          | some text =>
            let tokens := tokenize text
            (a.1 ++ tokens, a.2.1 + tokens.length, a.2.2 + 1)
          | none => a)
        ([], 0, 0)
      let docTerms := inner.1.dedup
      (docTerms.foldl
        (fun df term => assocInsert df term ((assocFind df term).getD 0 + 1)) acc.1,
       acc.2.1 + inner.2.1, acc.2.2 + inner.2.2))
    ([], 0, 0)
  { docFreq := res.1,
    avgDocLength := if 0 < res.2.2 then (res.2.1 : ℚ) / (res.2.2 : ℚ) else 0,
    totalDocs := items.length }

/-- The Semantic variant of SearchDetail. -/
structure SemDetail where
  matchedTerms : List String
  field : String
  weight : FP32

/-- A semantic-search match. -/
structure SearusMatchS where
  item : J
  score : FP32
  fieldScores : List (String × FP32) := []
  details : List SemDetail := []
  id : ℕ

/-- score_field: the per-matcher field score, together with the terms
pushed onto matched_terms while scoring. -/
def scoreField (lg : ℚ → ℚ) (bm : BM25Scorer) (queryTerms : List String)
    (text : String) (rule : FieldRule) (stats : CorpusStats) : FP32 × List String :=
  match rule.matcher with
  | .exact =>
    if strContains (lcStr text) (String.intercalate " " queryTerms)
    then (.fin 1, queryTerms) else (.fin 0, [])
  | .bm25 =>
    let docTerms := termFrequencies text
    (bm25Score lg bm.k1 bm.b queryTerms docTerms (tokenize text).length
       stats.avgDocLength stats.docFreq stats.totalDocs,
     queryTerms.filter (fun t => (assocFind docTerms t).isSome))
  | .tokenized =>
    let docTerms := termFrequencies text
    queryTerms.foldl
      (fun (acc : FP32 × List String) term =>
        match assocFind docTerms term with
        | some freq => (FP32.add acc.1 (.fin (freq : ℚ)), acc.2 ++ [term])
        | none => acc)
      (.fin 0, [])
  | .fuzzy => (.fin 0, [])

/-- SemanticSearch::match_entity: fold the configured field rules,
accumulating (total score, field scores, matched terms); a field whose
score is positive contributes score times boost times priority.  The
record becomes a match only when the total is positive. -/
def matchEntitySem (lg : ℚ → ℚ) (rules : SemanticRules) (bm : BM25Scorer)
    (item : J) (index : ℕ) (stats : CorpusStats) (queryTerms : List String) :
    Option SearusMatchS :=
  let res := rules.fields.foldl
    (fun (acc : FP32 × List (String × FP32) × List String) fr =>
      match extractField item fr.1 with
      | some text =>
        let fs := scoreField lg bm queryTerms text fr.2 stats
        let matched := acc.2.2 ++ fs.2
        if FP32.ltB (.fin 0) fs.1 then
          let weighted := FP32.mul (FP32.mul fs.1 (.fin fr.2.boost)) (.fin (fr.2.priority : ℚ))
          (FP32.add acc.1 weighted, assocInsert acc.2.1 fr.1 weighted, matched)
        else (acc.1, acc.2.1, matched)
      | none => acc)
    (.fin 0, [], [])
  if FP32.ltB (.fin 0) res.1 then
    some { item := item, score := res.1, fieldScores := res.2.1,
           details := if res.2.2.isEmpty then []
                      else [⟨res.2.2, "multiple", res.1⟩],
           id := index }
  else none

/-- SemanticSearch::search (sequential path): empty without query text,
items or query tokens; corpus statistics are computed over the full,
unfiltered item slice; the filter is applied when scoring records;
results are sorted by score descending. -/
def semanticSearch (lg : ℚ → ℚ) (rules : SemanticRules) (items : List J)
    (query : Query) : List SearusMatchS :=
  match query.text with
  | none => []
  | some queryText =>
    if items.isEmpty then []
    else
      let queryTerms := tokenize queryText
      if queryTerms.isEmpty then []
      else
        let stats := calculateCorpusStats items rules
        let results :=
          (items.enum.filter (fun p =>
            match query.filters with
            | some filters => filters.evaluate p.2
            | none => true)).filterMap
            (fun p => matchEntitySem lg rules {} p.2 p.1 stats queryTerms)
        sortByCmp (fun a b => (FP32.pcmp b.score a.score).getD Ordering.eq) results

/-! ## Engine: normalization, merge, sort, pagination (src/engine.rs)

The engine is generic over the record type; the merge and sort steps
never inspect records or details, so they are embedded polymorphically
(ι is the record type, δ the detail type).  Scores entering the engine
are modelled as exact rationals: the claims about the engine quantify
over match lists with finite scores. -/

/-- An engine-level SearusMatch. -/
structure EMatch (ι δ : Type) where
  item : ι
  score : ℚ
  fieldScores : List (String × ℚ) := []
  details : List δ := []
  id : ℕ
deriving DecidableEq

/-- The two normalization methods. -/
inductive NormalizationMethod where
  | minMax | inverseDistance
deriving DecidableEq

/-- Normalize one searcher's list.  Min and max are folds over all
scores (the Rust folds start from the infinities; for the non-empty
lists reaching this point that equals folding from the first score).
MinMax: when max - min is positive rescale, otherwise set every score
to 1.0.  InverseDistance: s becomes 1 / (1 + s). -/
def normalizeList {ι δ : Type} (method : NormalizationMethod)
    (ms : List (EMatch ι δ)) : List (EMatch ι δ) :=
  match ms with
  | [] => []
  | m0 :: rest =>
    let minS := (rest.map (fun m => m.score)).foldl min m0.score
    let maxS := (rest.map (fun m => m.score)).foldl max m0.score
    match method with
    | .minMax =>
      if 0 < maxS - minS then
        (m0 :: rest).map (fun m => { m with score := (m.score - minS) / (maxS - minS) })
      else
        (m0 :: rest).map (fun m => { m with score := 1 })
    | .inverseDistance =>
      (m0 :: rest).map (fun m => { m with score := 1 / (1 + m.score) })

/-- SearusEngine::normalize_results. -/
def normalizeResults {ι δ : Type} (method : NormalizationMethod)
    (results : List (SearcherKind × List (EMatch ι δ))) :
    List (SearcherKind × List (EMatch ι δ)) :=
  results.map (fun kr => (kr.1, normalizeList method kr.2))

/-- query.options.weights.get(&kind).copied().unwrap_or(1.0). -/
def weightFor (query : Query) (kind : SearcherKind) : ℚ :=
  (assocFind query.options.weights kind).getD 1

/-- One match folded into the merge map: fetch or create the entry for
the id (or_insert_with an empty zero-score match), then add the
weighted score, merge the weighted field scores, and append the
details. -/
def mergeStep {ι δ : Type} (weight : ℚ) (merged : List (ℕ × EMatch ι δ))
    (m : EMatch ι δ) : List (ℕ × EMatch ι δ) :=
  let entry := (assocFind merged m.id).getD
    { item := m.item, score := 0, fieldScores := [], details := [], id := m.id }
  assocInsert merged m.id
    { entry with
      score := entry.score + m.score * weight,
      fieldScores := m.fieldScores.foldl
        (fun fs p => assocInsert fs p.1 ((assocFind fs p.1).getD 0 + p.2 * weight))
        entry.fieldScores,
      details := entry.details ++ m.details }

/-- SearusEngine::merge_results: fold every (kind, matches) pair into
the merge map with the weight of the kind, then take the values.  The
association list keeps first-insertion order; HashMap::into_values
iterates in an unspecified order, so the engine-output theorems
quantify over permutations of this list. -/
def mergeMapOf {ι δ : Type} (results : List (SearcherKind × List (EMatch ι δ)))
    (query : Query) : List (ℕ × EMatch ι δ) :=
  results.foldl
    (fun merged kr => kr.2.foldl (mergeStep (weightFor query kr.1)) merged)
    []

/-- merge_results returns the values of the merge map. -/
def mergeResults {ι δ : Type} (results : List (SearcherKind × List (EMatch ι δ)))
    (query : Query) : List (EMatch ι δ) :=
  (mergeMapOf results query).map (fun p => p.2)

/-- The merged map contents for a searcher-output list: discard empty
per-searcher lists, normalize each survivor, merge (engine lines
167-208). -/
def engineMerged {ι δ : Type} (method : NormalizationMethod)
    (allResults : List (SearcherKind × List (EMatch ι δ))) (query : Query) :
    List (EMatch ι δ) :=
  mergeResults
    (normalizeResults method (allResults.filter (fun kr => !kr.2.isEmpty))) query

/-- The comparator of the engine sort:
b.score.partial_cmp(&a.score).unwrap_or(Equal); on rationals the
partial comparison always succeeds. -/
def engineCmp {ι δ : Type} (a b : EMatch ι δ) : Ordering :=
  compare b.score a.score

/-- The engine sort (merged.sort_by, stable, descending by score),
applied to the merge map values in whatever order they were iterated. -/
def engineOrder {ι δ : Type} (mergedIter : List (EMatch ι δ)) : List (EMatch ι δ) :=
  sortByCmp engineCmp mergedIter

/-- Sort then paginate: skip, then take limit (engine lines 215-232). -/
def engineSearchFrom {ι δ : Type} (query : Query) (mergedIter : List (EMatch ι δ)) :
    List (EMatch ι δ) :=
  ((engineOrder mergedIter).drop query.options.skip).take query.options.limit

/-! ## Spec-modelled variant for claim C3

The spec prescribes a guard for the degenerate average: when avg = 0
the length-normalization factor is defined to be 1.  The code has no
such guard; this variant follows the words of the spec so that the two
can be compared. -/

/-- Modelled from the spec: the normalized term frequency with the
length-normalization factor defined as 1 when avg = 0 (missing from
src/searchers/bm25.rs, which divides unconditionally). -/
def bm25NormTfSpec (k1 b : ℚ) (tf docLength : ℕ) (avg : ℚ) : FP32 :=
  let factor : ℚ := if avg = 0 then 1 else (docLength : ℚ) / avg
  FP32.div (.fin ((tf : ℚ) * (k1 + 1)))
    (.fin ((tf : ℚ) + k1 * (1 - b + b * factor)))

/-- Modelled from the spec: the per-term score using the guarded
normalization factor. -/
def bm25TermScoreSpec (lg : ℚ → ℚ) (k1 b : ℚ) (docTerms : List (String × ℕ))
    (docLength : ℕ) (avg : ℚ) (docFreq : List (String × ℕ)) (totalDocs : ℕ)
    (term : String) : FP32 :=
  let tf := (assocFind docTerms term).getD 0
  if tf = 0 then .fin 0
  else FP32.mul (.fin (bm25Idf lg ((assocFind docFreq term).getD 1 : ℕ) totalDocs))
    (bm25NormTfSpec k1 b tf docLength avg)

/-- Modelled from the spec: the BM25 score using the guarded
normalization factor. -/
def bm25ScoreSpec (lg : ℚ → ℚ) (k1 b : ℚ) (queryTerms : List String)
    (docTerms : List (String × ℕ)) (docLength : ℕ) (avg : ℚ)
    (docFreq : List (String × ℕ)) (totalDocs : ℕ) : FP32 :=
  queryTerms.foldl
    (fun acc term =>
      FP32.add acc (bm25TermScoreSpec lg k1 b docTerms docLength avg docFreq totalDocs term))
    (.fin 0)

/-! ## Concrete example inputs and derived notions used by the claim theorems -/

/-- The worked-example graph of the spec:
ai -> ml 0.7, dl 0.8, nlp 0.6; ml -> python 0.4; dl -> python 0.5. -/
def trtExampleG : TRT := [("ai", [("ml", 0.7), ("dl", 0.8), ("nlp", 0.6)]),
                          ("ml", [("python", 0.4)]),
                          ("dl", [("python", 0.5)])]

/-- The product of the edge strengths along an explicit path of tags,
read off the tree; None when some edge is missing. -/
def pathStrength (nodes : TRT) : String → List String → Option ℚ
  | _, [] => some 1
  | cur, next :: rest =>
    match assocFind nodes cur with
    | none => none
    | some edges =>
      match assocFind edges next with
      | none => none
      | some es => (pathStrength nodes next rest).map (fun p => es * p)

/-- The graph refuting the maximum-over-paths clause of claim C4:
a -> m 0.1, a -> b 0.9, b -> m 1, m -> z 1. -/
def cexTRT : TRT := [("a", [("m", 0.1), ("b", 0.9)]), ("b", [("m", 1)]), ("m", [("z", 1)])]

def keysOf {κ β : Type} (m : List (κ × β)) : List κ := m.map Prod.fst

def countNotIn (A v : List String) : ℕ := (A.filter (fun t => !(v.contains t))).length

def expandTagsWithFuel (nodes : TRT) (queryTags : List String) (maxDepth fuel : ℕ) :
    List (String × ℚ) :=
  let seeds := queryTags.foldl (fun acc tag => assocInsert acc (lcStr tag) 1) []
  if maxDepth = 0 ∨ nodes = [] then seeds
  else
    queryTags.foldl
      (fun expanded qt => bfsLoop nodes maxDepth fuel [(lcStr qt, 0, 1)] [lcStr qt] expanded)
      seeds

def numNodes (nodes : TRT) : ℕ :=
  ((nodes.map Prod.fst) ++ nodes.flatMap (fun node => node.2.map Prod.fst)).dedup.length

def cycleTRT : TRT := [("a", [("b", 0.5)]), ("b", [("a", 0.5)])]

/-- The item tags whose lowercase is present in the expansion map:
exactly the tags that match_entity collects into matched_tags. -/
def matchedOf (E : List (String × ℚ)) (itemTags : List String) : List String :=
  itemTags.filter (fun t => (assocFind E (lcStr t)).isSome)

/-- Sum of the strengths of the matched item tags (total_strength). -/
def strengthSumOf (E : List (String × ℚ)) (itemTags : List String) : ℚ :=
  ((matchedOf E itemTags).map (fun t => (assocFind E (lcStr t)).getD 0)).sum

/-- Concrete matches for the claim C8 witness. -/
def wm0 : EMatch ℕ ℕ := { item := 7, score := 2, id := 0 }
def wm1 : EMatch ℕ ℕ := { item := 8, score := 4, id := 1 }

/-- The score stored in the merge map for an id (0 when absent). -/
def scoreAt {ι δ : Type} (merged : List (ℕ × EMatch ι δ)) (id : ℕ) : ℚ :=
  ((assocFind merged id).map (fun m => m.score)).getD 0

/-- The weighted sum the spec prescribes for an id: over every searcher
list, the sum of the scores of the matches with that id times the
weight of that searcher kind. -/
def contributionOf {ι δ : Type} (results : List (SearcherKind × List (EMatch ι δ)))
    (query : Query) (id : ℕ) : ℚ :=
  (results.map (fun kr => weightFor query kr.1 *
    ((kr.2.filter (fun m => m.id = id)).map (fun m => m.score)).sum)).sum

/-- Modelled from the spec: the semantic searcher with corpus
statistics computed over the records that satisfy query.filters
(missing from src/searchers/semantic.rs, which passes the full
unfiltered slice to calculate_corpus_stats). -/
def semanticSearchSpec (lg : ℚ → ℚ) (rules : SemanticRules) (items : List J)
    (query : Query) : List SearusMatchS :=
  match query.text with
  | none => []
  | some queryText =>
    if items.isEmpty then []
    else
      let queryTerms := tokenize queryText
      if queryTerms.isEmpty then []
      else
        let kept := items.filter (fun item =>
          match query.filters with
          | some filters => filters.evaluate item
          | none => true)
        let stats := calculateCorpusStats kept rules
        let results :=
          (items.enum.filter (fun p =>
            match query.filters with
            | some filters => filters.evaluate p.2
            | none => true)).filterMap
            (fun p => matchEntitySem lg rules {} p.2 p.1 stats queryTerms)
        sortByCmp (fun a b => (FP32.pcmp b.score a.score).getD Ordering.eq) results

def c1A : J := J.jobj [("title", J.jstr "x"), ("price", J.jnum 10)]
def c1B : J := J.jobj [("title", J.jstr "x"), ("price", J.jnum 1000)]
def c1Rules : SemanticRules := ⟨[("title", { matcher := .bm25 })]⟩
def c1Filter : FilterExpr := .compare "price" .lt (.num 100)
def c1Query : Query := { text := some "x", filters := some c1Filter }

def c1RulesT : SemanticRules := ⟨[("title", { matcher := .tokenized })]⟩

def c1M : SearusMatchS :=
  { item := c1A, score := FP32.fin 1, fieldScores := [("title", FP32.fin 1)],
    details := [⟨["x"], "multiple", FP32.fin 1⟩], id := 0 }

/-! ## Claims C10 and C3: the BM25 scorer -/

/-- Helper for claim C3: with a zero average document length and a
positive document length, every per-term BM25 contribution evaluates to
exactly zero: the inner division is an IEEE division by zero giving
positive infinity, the denominator becomes infinite, the normalized
term frequency collapses to zero. -/
theorem bm25TermScore_avg_zero (lg : ℚ → ℚ) (k1 b : ℚ) (hk : 0 < k1) (hb : 0 < b)
    (docTerms : List (String × ℕ)) (docLength : ℕ) (hdl : 0 < docLength)
    (docFreq : List (String × ℕ)) (totalDocs : ℕ) (term : String) :
    bm25TermScore lg k1 b docTerms docLength 0 docFreq totalDocs term = .fin 0 := by
  unfold bm25TermScore
  by_cases htf : (assocFind docTerms term).getD 0 = 0
  · simp [htf]
  · have hdl2 : ¬ ((docLength : ℚ) = 0) := by exact_mod_cast Nat.pos_iff_ne_zero.mp hdl
    have hdl3 : (0:ℚ) < (docLength : ℚ) := by exact_mod_cast hdl
    simp [htf, bm25NormTf, FP32.div, FP32.mul, FP32.add, hdl2, hdl3,
      hb.ne', hb, hk.ne', hk]

/-- Claim C3, amended.  When the average document length is 0 the code
does not take the length-normalization factor to be 1: it performs the
IEEE division by zero, the normalization denominator becomes positive
infinity, and (for positive k1 and b, in particular the default
parameters, and positive document length) every query term contributes
exactly 0, so the scorer returns 0.  The scorer is a total function on
all inputs (no panic). -/
theorem bm25Score_avg_zero (lg : ℚ → ℚ) (k1 b : ℚ) (hk : 0 < k1) (hb : 0 < b)
    (queryTerms : List String) (docTerms : List (String × ℕ)) (docLength : ℕ)
    (hdl : 0 < docLength) (docFreq : List (String × ℕ)) (totalDocs : ℕ) :
    bm25Score lg k1 b queryTerms docTerms docLength 0 docFreq totalDocs = .fin 0 := by
  unfold bm25Score
  induction queryTerms with
  | nil => rfl
  | cons t ts ih =>
    rw [List.foldl_cons, bm25TermScore_avg_zero lg k1 b hk hb docTerms docLength hdl
      docFreq totalDocs t]
    have : FP32.add (.fin 0) (.fin 0) = FP32.fin 0 := by simp [FP32.add]
    rw [this]; exact ih

/-- Witness for claim C3 at concrete input: one query term, present in
the document once, document length 1, average 0, default parameters. -/
theorem bm25Score_avg_zero_witness :
    bm25Score (fun _ => 1) 1.5 0.75 ["a"] [("a", 1)] 1 0 [] 1 = .fin 0 :=
  bm25Score_avg_zero (fun _ => 1) 1.5 0.75 (by norm_num) (by norm_num) ["a"] [("a", 1)] 1
    (by norm_num) [] 1

/-- Counterexample for claim C3 as stated: at a concrete degenerate
input with average document length 0, the code scores 0 (the division
by zero happens and collapses the contribution), while the
spec-modelled scorer with the factor-is-1 guard scores 1; the factor is
therefore not taken to be 1. -/
theorem bm25Score_avg_zero_cex :
    bm25Score (fun _ => 1) 1.5 0.75 ["a"] [("a", 1)] 1 0 [] 1 = .fin 0 ∧
    bm25ScoreSpec (fun _ => 1) 1.5 0.75 ["a"] [("a", 1)] 1 0 [] 1 = .fin 1 ∧
    FP32.fin 0 ≠ FP32.fin 1 := by
  refine ⟨?_, ?_, by decide⟩
  · norm_num +decide [bm25Score, bm25TermScore, bm25NormTf, bm25Idf, assocFind,
      FP32.div, FP32.mul, FP32.add]
  · norm_num +decide [bm25ScoreSpec, bm25TermScoreSpec, bm25NormTfSpec, bm25Idf, assocFind,
      FP32.div, FP32.mul, FP32.add]

/-- Claim C10.  A query term occurring in the document (tf positive)
but absent from the corpus document-frequency map is scored with
document frequency 1: its contribution is the idf value
lg((N - 0.5) / 1.5 + 1) (exactly the df = 1 idf) times the normalized
term frequency, for every logarithm function, parameters, corpus and
document. -/
theorem bm25TermScore_absent_df (lg : ℚ → ℚ) (k1 b : ℚ) (docTerms : List (String × ℕ))
    (docLength : ℕ) (avg : ℚ) (docFreq : List (String × ℕ)) (totalDocs : ℕ) (term : String)
    (habs : assocFind docFreq term = none)
    (htf : (assocFind docTerms term).getD 0 ≠ 0) :
    bm25TermScore lg k1 b docTerms docLength avg docFreq totalDocs term =
      FP32.mul (.fin (lg (((totalDocs : ℚ) - 0.5) / 1.5 + 1)))
        (bm25NormTf k1 b ((assocFind docTerms term).getD 0) docLength avg) := by
  unfold bm25TermScore
  simp only [htf, habs, if_false, Option.getD_none, bm25Idf]
  norm_num
  have harg : ((totalDocs : ℚ) - 1 + 1 / 2) = ((totalDocs : ℚ) - 1 / 2) := by ring
  rw [harg]

/-- Witness for claim C10 at a concrete input: term present twice in
the document, absent from the document-frequency map, three corpus
documents. -/
theorem bm25TermScore_absent_df_witness :
    bm25TermScore (fun x => x) 1.5 0.75 [("t", 2)] 2 2 [] 3 "t" =
      FP32.mul (.fin (((3 : ℚ) - 0.5) / 1.5 + 1))
        (bm25NormTf 1.5 0.75 2 2 2) := by
  have h := bm25TermScore_absent_df (fun x => x) 1.5 0.75 [("t", 2)] 2 2 [] 3 "t"
    (by decide) (by decide)
  simpa using h

/-! ## Claim C4: TRT expansion strengths -/

/-- Claim C4, amended.  The strength recorded for a reachable tag is a
product of edge strengths along a traversal path of length at most
max_depth, and when several processed edges reach the same tag the
maximum of the propagated strengths is kept -- but because each tag is
traversed only once per seed, at its first-enqueued strength, the
recorded strength is not in general the maximum over all paths of
length at most max_depth (see the counterexample).  The worked example
behaves as the spec says: expand([ai], 2) gives ai 1.0, ml 0.7, dl 0.8,
nlp 0.6 and python max(0.7 times 0.4, 0.8 times 0.5) = 0.40. -/
theorem expandTags_worked_example :
    expandTags trtExampleG ["ai"] 2 =
      [("ai", 1), ("ml", 0.7), ("dl", 0.8), ("nlp", 0.6), ("python", 0.4)] ∧
    max ((0.7 : ℚ) * 0.4) ((0.8 : ℚ) * 0.5) = 0.4 := by
  constructor
  · norm_num +decide [expandTags, trtExampleG, bfsLoop, processEdges, trtFuel,
      allRelatedLower, assocFind, assocInsert, upsertMax, lcStr, lcChar]
  · norm_num

/-- Counterexample for claim C4 as stated: in cexTRT the path
a -> b -> m -> z has length 3 and accumulated strength 0.9, yet
expand([a], 3) records z at 0.1 (the strength of the path a -> m -> z
along which m was first enqueued): the recorded strength is not the
maximum of the accumulated path strengths.  This holds in every
hash-iteration order: m is enqueued at depth 1 with strength 0.1 from
the only a -> m edge before b is popped, and is never re-enqueued. -/
theorem expandTags_not_path_max_cex :
    pathStrength cexTRT "a" ["b", "m", "z"] = some 0.9 ∧
    (["b", "m", "z"] : List String).length ≤ 3 ∧
    assocFind (expandTags cexTRT ["a"] 3) "z" = some 0.1 ∧
    ¬ ((0.1 : ℚ) = 0.9) := by
  refine ⟨?_, by decide, ?_, by norm_num⟩
  · norm_num +decide [pathStrength, cexTRT, assocFind]
  · norm_num +decide [expandTags, cexTRT, bfsLoop, processEdges, trtFuel,
      allRelatedLower, assocFind, assocInsert, upsertMax, lcStr, lcChar]

/-! ## Helper notions and lemmas for claim C9 -/

@[simp] theorem keysOf_nil {κ β : Type} : keysOf ([] : List (κ × β)) = [] := rfl

@[simp] theorem keysOf_cons {κ β : Type} (p : κ × β) (m : List (κ × β)) :
    keysOf (p :: m) = p.1 :: keysOf m := rfl

theorem mem_keysOf_upsertMax {m : List (String × ℚ)} {k : String} {v : ℚ} {x : String}
    (hx : x ∈ keysOf (upsertMax m k v)) : x ∈ keysOf m ∨ x = k := by
  induction m with
  | nil => simpa [upsertMax] using hx
  | cons p rest ih =>
    by_cases h : p.1 = k
    · rw [upsertMax, if_pos h, keysOf_cons] at hx
      rcases List.mem_cons.mp hx with hx | hx
      · exact Or.inl (List.mem_cons.mpr (Or.inl hx))
      · exact Or.inl (List.mem_cons.mpr (Or.inr hx))
    · rw [upsertMax, if_neg h, keysOf_cons] at hx
      rcases List.mem_cons.mp hx with hx | hx
      · exact Or.inl (List.mem_cons.mpr (Or.inl hx))
      · rcases ih hx with h2 | h2
        · exact Or.inl (List.mem_cons.mpr (Or.inr h2))
        · exact Or.inr h2

theorem keysOf_upsertMax_nodup {m : List (String × ℚ)} {k : String} {v : ℚ}
    (h : (keysOf m).Nodup) : (keysOf (upsertMax m k v)).Nodup := by
  induction m with
  | nil => simp [upsertMax]
  | cons p rest ih =>
    rw [keysOf_cons, List.nodup_cons] at h
    by_cases hpk : p.1 = k
    · rw [upsertMax, if_pos hpk, keysOf_cons]
      exact List.nodup_cons.mpr h
    · rw [upsertMax, if_neg hpk, keysOf_cons]
      refine List.nodup_cons.mpr ⟨fun hx => ?_, ih h.2⟩
      rcases mem_keysOf_upsertMax hx with h2 | h2
      · exact h.1 h2
      · exact hpk h2

theorem assocFind_upsertMax_ne {m : List (String × ℚ)} {k k2 : String} {v : ℚ}
    (h : k ≠ k2) : assocFind (upsertMax m k v) k2 = assocFind m k2 := by
  induction m with
  | nil => simp [upsertMax, assocFind, h]
  | cons p rest ih =>
    by_cases hpk : p.1 = k
    · have : ¬ (p.1 = k2) := fun hc => h (hpk ▸ hc)
      simp [upsertMax, hpk, assocFind, this, h]
    · by_cases hp2 : p.1 = k2
      · simp [upsertMax, hpk, assocFind, hp2, Ne.symm h]
      · simp [upsertMax, hpk, assocFind, hp2, ih]

theorem assocFind_upsertMax_some {m : List (String × ℚ)} {k : String} {v w : ℚ}
    (h : assocFind m k = some w) : assocFind (upsertMax m k v) k = some (max w v) := by
  induction m with
  | nil => simp [assocFind] at h
  | cons p rest ih =>
    by_cases hpk : p.1 = k
    · rw [assocFind, if_pos hpk] at h
      simp only [Option.some.injEq] at h
      simp [upsertMax, hpk, assocFind, h]
    · rw [assocFind, if_neg hpk] at h
      simp [upsertMax, hpk, assocFind, ih h]

theorem countNotIn_cons {A : List String} (hA : A.Nodup) {x : String} (v : List String)
    (hx : x ∈ A) (hxv : ¬ v.contains x = true) :
    countNotIn A (x :: v) + 1 = countNotIn A v := by
  induction A with
  | nil => cases hx
  | cons a A ih =>
    rw [List.nodup_cons] at hA
    rcases List.mem_cons.mp hx with hxa | hxA
    · subst hxa
      have hpa : (x :: v).contains x = true := by simp [List.contains_cons]
      have hfa : ∀ t ∈ A, ((x :: v).contains t) = (v.contains t) := by
        intro t ht
        have : ¬ (t = x) := fun hc => hA.1 (hc ▸ ht)
        simp [List.contains_cons, this]
      simp only [countNotIn, List.filter_cons, hpa, Bool.not_true, hxv, Bool.not_false]
      rw [List.filter_congr (fun t ht => by rw [hfa t ht])]
      simp
    · have hxa : ¬ (x = a) := fun hc => hA.1 (hc ▸ hxA)
      have hhead : ((x :: v).contains a) = (v.contains a) := by
        simp [List.contains_cons, Ne.symm hxa]
      simp only [countNotIn, List.filter_cons, hhead]
      by_cases hva : v.contains a
      · simp only [hva, Bool.not_true]
        exact ih hA.2 hxA
      · simp only [hva, Bool.not_false, if_true, List.length_cons]
        have := ih hA.2 hxA
        simp only [countNotIn] at this
        omega

theorem assocFind_some_mem {κ β : Type} [DecidableEq κ] {m : List (κ × β)} {key : κ} {v : β}
    (h : assocFind m key = some v) : (key, v) ∈ m := by
  induction m with
  | nil => simp [assocFind] at h
  | cons p rest ih =>
    by_cases hp : p.1 = key
    · rw [assocFind, if_pos hp] at h
      simp only [Option.some.injEq] at h
      exact List.mem_cons.mpr (Or.inl (by rw [← hp, ← h]))
    · rw [assocFind, if_neg hp] at h
      exact List.mem_cons.mpr (Or.inr (ih h))

theorem processEdges_measure {A : List String} (hA : A.Nodup) (d : ℕ) (s : ℚ) :
    ∀ (edges expanded : List (String × ℚ)) (visited : List String)
      (queue : List (String × ℕ × ℚ)),
      (∀ e ∈ edges, lcStr e.1 ∈ A) →
      (processEdges d s edges expanded visited queue).2.2.length +
        countNotIn A (processEdges d s edges expanded visited queue).2.1 ≤
      queue.length + countNotIn A visited := by
  intro edges
  induction edges with
  | nil => intro expanded visited queue _; simp [processEdges]
  | cons e rest ih =>
    intro expanded visited queue hmem
    obtain ⟨rt, es⟩ := e
    by_cases hv : visited.contains (lcStr rt)
    · rw [processEdges]
      simp only [hv, if_true]
      exact ih _ visited queue (fun e he => hmem e (List.mem_cons.mpr (Or.inr he)))
    · rw [processEdges]
      simp only [Bool.not_eq_true] at hv
      simp only [hv, Bool.false_eq_true, if_false]
      have h1 := ih (upsertMax expanded (lcStr rt) (s * es)) (lcStr rt :: visited)
        (queue ++ [(lcStr rt, d + 1, s * es)])
        (fun e he => hmem e (List.mem_cons.mpr (Or.inr he)))
      have h2 : countNotIn A (lcStr rt :: visited) + 1 = countNotIn A visited :=
        countNotIn_cons hA visited
          (by simpa using hmem (rt, es) (List.mem_cons.mpr (Or.inl rfl)))
          (by simp only [hv]; exact Bool.false_ne_true)
      simp only [List.length_append, List.length_cons, List.length_nil] at h1
      omega

theorem processEdges_keys {A : List String} (d : ℕ) (s : ℚ) :
    ∀ (edges expanded : List (String × ℚ)) (visited : List String)
      (queue : List (String × ℕ × ℚ)),
      (∀ e ∈ edges, lcStr e.1 ∈ A) →
      ∀ x ∈ keysOf (processEdges d s edges expanded visited queue).1,
        x ∈ keysOf expanded ∨ x ∈ A := by
  intro edges
  induction edges with
  | nil => intro expanded visited queue _ x hx; exact Or.inl (by simpa [processEdges] using hx)
  | cons e rest ih =>
    intro expanded visited queue hmem x hx
    obtain ⟨rt, es⟩ := e
    have hrt : lcStr rt ∈ A := by
      simpa using hmem (rt, es) (List.mem_cons.mpr (Or.inl rfl))
    have hrest := fun e he => hmem e (List.mem_cons.mpr (Or.inr he))
    by_cases hv : visited.contains (lcStr rt) = true
    · rw [processEdges] at hx
      simp only [hv, if_true] at hx
      rcases ih _ visited queue hrest x hx with h | h
      · rcases mem_keysOf_upsertMax h with h2 | h2
        · exact Or.inl h2
        · exact Or.inr (h2 ▸ hrt)
      · exact Or.inr h
    · rw [processEdges] at hx
      simp only [Bool.not_eq_true] at hv
      simp only [hv, Bool.false_eq_true, if_false] at hx
      rcases ih _ (lcStr rt :: visited) (queue ++ [(lcStr rt, d + 1, s * es)]) hrest x hx with h | h
      · rcases mem_keysOf_upsertMax h with h2 | h2
        · exact Or.inl h2
        · exact Or.inr (h2 ▸ hrt)
      · exact Or.inr h

theorem processEdges_keys_nodup (d : ℕ) (s : ℚ) :
    ∀ (edges expanded : List (String × ℚ)) (visited : List String)
      (queue : List (String × ℕ × ℚ)),
      (keysOf expanded).Nodup →
      (keysOf (processEdges d s edges expanded visited queue).1).Nodup := by
  intro edges
  induction edges with
  | nil => intro expanded visited queue h; simpa [processEdges] using h
  | cons e rest ih =>
    intro expanded visited queue h
    obtain ⟨rt, es⟩ := e
    by_cases hv : visited.contains (lcStr rt) = true
    · rw [processEdges]
      simp only [hv, if_true]
      exact ih _ visited queue (keysOf_upsertMax_nodup h)
    · rw [processEdges]
      simp only [Bool.not_eq_true] at hv
      simp only [hv, Bool.false_eq_true, if_false]
      exact ih _ _ _ (keysOf_upsertMax_nodup h)

theorem processEdges_queue_strengths (d : ℕ) (s : ℚ) (hs : 0 ≤ s ∧ s ≤ 1) :
    ∀ (edges expanded : List (String × ℚ)) (visited : List String)
      (queue : List (String × ℕ × ℚ)),
      (∀ e ∈ edges, 0 ≤ e.2 ∧ e.2 ≤ 1) →
      (∀ y ∈ queue, 0 ≤ y.2.2 ∧ y.2.2 ≤ 1) →
      ∀ y ∈ (processEdges d s edges expanded visited queue).2.2, 0 ≤ y.2.2 ∧ y.2.2 ≤ 1 := by
  intro edges
  induction edges with
  | nil => intro expanded visited queue _ hq y hy; exact hq y (by simpa [processEdges] using hy)
  | cons e rest ih =>
    intro expanded visited queue hE hq y hy
    obtain ⟨rt, es⟩ := e
    have hes : 0 ≤ es ∧ es ≤ 1 := by
      simpa using hE (rt, es) (List.mem_cons.mpr (Or.inl rfl))
    have hrest := fun e he => hE e (List.mem_cons.mpr (Or.inr he))
    have hns : 0 ≤ s * es ∧ s * es ≤ 1 :=
      ⟨mul_nonneg hs.1 hes.1, mul_le_one₀ hs.2 hes.1 hes.2⟩
    by_cases hv : visited.contains (lcStr rt) = true
    · rw [processEdges] at hy
      simp only [hv, if_true] at hy
      exact ih _ visited queue hrest hq y hy
    · rw [processEdges] at hy
      simp only [Bool.not_eq_true] at hv
      simp only [hv, Bool.false_eq_true, if_false] at hy
      refine ih _ _ _ hrest ?_ y hy
      intro z hz
      rcases List.mem_append.mp hz with hz | hz
      · exact hq z hz
      · simp only [List.mem_singleton] at hz
        subst hz
        exact hns

theorem processEdges_seed_one (d : ℕ) (s : ℚ) (hs : 0 ≤ s ∧ s ≤ 1) :
    ∀ (edges expanded : List (String × ℚ)) (visited : List String)
      (queue : List (String × ℕ × ℚ)) (k : String),
      (∀ e ∈ edges, 0 ≤ e.2 ∧ e.2 ≤ 1) →
      assocFind expanded k = some 1 →
      assocFind (processEdges d s edges expanded visited queue).1 k = some 1 := by
  intro edges
  induction edges with
  | nil => intro expanded visited queue k _ h; simpa [processEdges] using h
  | cons e rest ih =>
    intro expanded visited queue k hE h
    obtain ⟨rt, es⟩ := e
    have hes : 0 ≤ es ∧ es ≤ 1 := by
      simpa using hE (rt, es) (List.mem_cons.mpr (Or.inl rfl))
    have hrest := fun e he => hE e (List.mem_cons.mpr (Or.inr he))
    have hup : assocFind (upsertMax expanded (lcStr rt) (s * es)) k = some 1 := by
      by_cases hk : lcStr rt = k
      · subst hk
        rw [assocFind_upsertMax_some h]
        have : max 1 (s * es) = 1 :=
          max_eq_left (mul_le_one₀ hs.2 hes.1 hes.2)
        rw [this]
      · rw [assocFind_upsertMax_ne hk, h]
    by_cases hv : visited.contains (lcStr rt) = true
    · rw [processEdges]
      simp only [hv, if_true]
      exact ih _ visited queue k hrest hup
    · rw [processEdges]
      simp only [Bool.not_eq_true] at hv
      simp only [hv, Bool.false_eq_true, if_false]
      exact ih _ _ _ k hrest hup

theorem lookup_edges_lc_mem {nodes : TRT} {t : String} {edges : List (String × ℚ)}
    (h : assocFind nodes t = some edges) :
    ∀ e ∈ edges, lcStr e.1 ∈ allRelatedLower nodes := by
  intro e he
  have hmem : (t, edges) ∈ nodes := assocFind_some_mem h
  refine List.mem_dedup.mpr (List.mem_flatMap.mpr ⟨(t, edges), hmem, ?_⟩)
  exact List.mem_map_of_mem _ he

theorem lookup_edges_bounds {nodes : TRT} {t : String} {edges : List (String × ℚ)}
    (hG : ∀ node ∈ nodes, ∀ e ∈ node.2, 0 ≤ e.2 ∧ e.2 ≤ 1)
    (h : assocFind nodes t = some edges) :
    ∀ e ∈ edges, 0 ≤ e.2 ∧ e.2 ≤ 1 :=
  hG (t, edges) (assocFind_some_mem h)

theorem bfsLoop_fuel_irrel (nodes : TRT) (maxDepth : ℕ) :
    ∀ (f1 f2 : ℕ) (q : List (String × ℕ × ℚ)) (v : List String) (e : List (String × ℚ)),
      q.length + countNotIn (allRelatedLower nodes) v ≤ f1 →
      q.length + countNotIn (allRelatedLower nodes) v ≤ f2 →
      bfsLoop nodes maxDepth f1 q v e = bfsLoop nodes maxDepth f2 q v e := by
  intro f1
  induction f1 with
  | zero =>
    intro f2 q v e h1 _
    have hq : q = [] := List.length_eq_zero.mp (by omega)
    subst hq
    cases f2 <;> simp [bfsLoop]
  | succ n ih =>
    intro f2 q v e h1 h2
    cases q with
    | nil => cases f2 <;> simp [bfsLoop]
    | cons head qs =>
      obtain ⟨t, d, s⟩ := head
      have hlen : qs.length + 1 + countNotIn (allRelatedLower nodes) v ≤ f2 := by
        simpa using h2
      obtain ⟨m, rfl⟩ : ∃ m, f2 = m + 1 := ⟨f2 - 1, by omega⟩
      by_cases hd : maxDepth ≤ d
      · simp only [bfsLoop, if_pos hd]
        apply ih <;> simp only [List.length_cons] at h1 hlen <;> omega
      · cases hfind : assocFind nodes t with
        | none =>
          simp only [bfsLoop, if_neg hd, hfind]
          apply ih <;> simp only [List.length_cons] at h1 hlen <;> omega
        | some edges =>
          simp only [bfsLoop, if_neg hd, hfind]
          have hmeas : (processEdges d s edges e v qs).2.2.length +
              countNotIn (allRelatedLower nodes) (processEdges d s edges e v qs).2.1 ≤
              qs.length + countNotIn (allRelatedLower nodes) v :=
            processEdges_measure (by unfold allRelatedLower; exact List.nodup_dedup _)
              d s edges e v qs (lookup_edges_lc_mem hfind)
          apply ih <;> simp only [List.length_cons] at h1 hlen <;> omega

theorem bfsLoop_keys (nodes : TRT) (maxDepth : ℕ) :
    ∀ (fuel : ℕ) (q : List (String × ℕ × ℚ)) (v : List String) (e : List (String × ℚ)),
      ∀ x ∈ keysOf (bfsLoop nodes maxDepth fuel q v e),
        x ∈ keysOf e ∨ x ∈ allRelatedLower nodes := by
  intro fuel
  induction fuel with
  | zero => intro q v e x hx; exact Or.inl (by simpa [bfsLoop] using hx)
  | succ n ih =>
    intro q v e x hx
    cases q with
    | nil => exact Or.inl (by simpa [bfsLoop] using hx)
    | cons head qs =>
      obtain ⟨t, d, s⟩ := head
      by_cases hd : maxDepth ≤ d
      · rw [bfsLoop] at hx
        simp only [if_pos hd] at hx
        exact ih qs v e x hx
      · cases hfind : assocFind nodes t with
        | none =>
          rw [bfsLoop] at hx
          simp only [if_neg hd, hfind] at hx
          exact ih qs v e x hx
        | some edges =>
          rw [bfsLoop] at hx
          simp only [if_neg hd, hfind] at hx
          rcases ih _ _ _ x hx with h | h
          · exact processEdges_keys d s edges e v qs (lookup_edges_lc_mem hfind) x h
          · exact Or.inr h

theorem bfsLoop_keys_nodup (nodes : TRT) (maxDepth : ℕ) :
    ∀ (fuel : ℕ) (q : List (String × ℕ × ℚ)) (v : List String) (e : List (String × ℚ)),
      (keysOf e).Nodup → (keysOf (bfsLoop nodes maxDepth fuel q v e)).Nodup := by
  intro fuel
  induction fuel with
  | zero => intro q v e h; simpa [bfsLoop] using h
  | succ n ih =>
    intro q v e h
    cases q with
    | nil => simpa [bfsLoop] using h
    | cons head qs =>
      obtain ⟨t, d, s⟩ := head
      by_cases hd : maxDepth ≤ d
      · rw [bfsLoop]; simp only [if_pos hd]; exact ih qs v e h
      · cases hfind : assocFind nodes t with
        | none => rw [bfsLoop]; simp only [if_neg hd, hfind]; exact ih qs v e h
        | some edges =>
          rw [bfsLoop]; simp only [if_neg hd, hfind]
          exact ih _ _ _ (processEdges_keys_nodup d s edges e v qs h)

theorem bfsLoop_seed_one (nodes : TRT) (maxDepth : ℕ)
    (hG : ∀ node ∈ nodes, ∀ e ∈ node.2, 0 ≤ e.2 ∧ e.2 ≤ 1) :
    ∀ (fuel : ℕ) (q : List (String × ℕ × ℚ)) (v : List String) (e : List (String × ℚ))
      (k : String),
      (∀ y ∈ q, 0 ≤ y.2.2 ∧ y.2.2 ≤ 1) →
      assocFind e k = some 1 →
      assocFind (bfsLoop nodes maxDepth fuel q v e) k = some 1 := by
  intro fuel
  induction fuel with
  | zero => intro q v e k _ h; simpa [bfsLoop] using h
  | succ n ih =>
    intro q v e k hq h
    cases q with
    | nil => simpa [bfsLoop] using h
    | cons head qs =>
      obtain ⟨t, d, s⟩ := head
      have hqs := fun y hy => hq y (List.mem_cons.mpr (Or.inr hy))
      by_cases hd : maxDepth ≤ d
      · rw [bfsLoop]; simp only [if_pos hd]; exact ih qs v e k hqs h
      · cases hfind : assocFind nodes t with
        | none => rw [bfsLoop]; simp only [if_neg hd, hfind]; exact ih qs v e k hqs h
        | some edges =>
          rw [bfsLoop]; simp only [if_neg hd, hfind]
          have hs : 0 ≤ s ∧ s ≤ 1 := by
            simpa using hq (t, d, s) (List.mem_cons.mpr (Or.inl rfl))
          have hE := lookup_edges_bounds hG hfind
          refine ih _ _ _ k ?_ (processEdges_seed_one d s hs edges e v qs k hE h)
          exact processEdges_queue_strengths d s hs edges e v qs hE hqs

theorem assocFind_assocInsert_self {κ β : Type} [DecidableEq κ] (m : List (κ × β)) (k : κ) (v : β) :
    assocFind (assocInsert m k v) k = some v := by
  induction m with
  | nil => simp [assocInsert, assocFind]
  | cons p rest ih =>
    by_cases hp : p.1 = k
    · simp [assocInsert, hp, assocFind]
    · simp [assocInsert, hp, assocFind, ih]

theorem assocFind_assocInsert_ne {κ β : Type} [DecidableEq κ] (m : List (κ × β)) {k k2 : κ}
    (v : β) (h : k ≠ k2) : assocFind (assocInsert m k v) k2 = assocFind m k2 := by
  induction m with
  | nil => simp [assocInsert, assocFind, h]
  | cons p rest ih =>
    by_cases hp : p.1 = k
    · have hp2 : ¬ (p.1 = k2) := fun hc => h (hp ▸ hc)
      simp [assocInsert, hp, assocFind, hp2, h]
    · by_cases hp2 : p.1 = k2
      · simp [assocInsert, hp, assocFind, hp2, Ne.symm h]
      · simp [assocInsert, hp, assocFind, hp2, ih]

theorem mem_keysOf_assocInsert {κ β : Type} [DecidableEq κ] {m : List (κ × β)} {k : κ} {v : β}
    {x : κ} (hx : x ∈ keysOf (assocInsert m k v)) : x ∈ keysOf m ∨ x = k := by
  induction m with
  | nil => simpa [assocInsert] using hx
  | cons p rest ih =>
    by_cases hp : p.1 = k
    · rw [assocInsert, if_pos hp, keysOf_cons] at hx
      rcases List.mem_cons.mp hx with hx | hx
      · exact Or.inl (List.mem_cons.mpr (Or.inl hx))
      · exact Or.inl (List.mem_cons.mpr (Or.inr hx))
    · rw [assocInsert, if_neg hp, keysOf_cons] at hx
      rcases List.mem_cons.mp hx with hx | hx
      · exact Or.inl (List.mem_cons.mpr (Or.inl hx))
      · rcases ih hx with h2 | h2
        · exact Or.inl (List.mem_cons.mpr (Or.inr h2))
        · exact Or.inr h2

theorem keysOf_assocInsert_nodup {κ β : Type} [DecidableEq κ] {m : List (κ × β)} {k : κ} {v : β}
    (h : (keysOf m).Nodup) : (keysOf (assocInsert m k v)).Nodup := by
  induction m with
  | nil => simp [assocInsert]
  | cons p rest ih =>
    rw [keysOf_cons, List.nodup_cons] at h
    by_cases hp : p.1 = k
    · rw [assocInsert, if_pos hp, keysOf_cons]
      exact List.nodup_cons.mpr h
    · rw [assocInsert, if_neg hp, keysOf_cons]
      refine List.nodup_cons.mpr ⟨fun hx => ?_, ih h.2⟩
      rcases mem_keysOf_assocInsert hx with h2 | h2
      · exact h.1 h2
      · exact hp h2

theorem seedFold_preserve_one :
    ∀ (tags : List String) (acc : List (String × ℚ)) (k : String),
      assocFind acc k = some 1 →
      assocFind (tags.foldl (fun a t => assocInsert a (lcStr t) 1) acc) k = some 1 := by
  intro tags
  induction tags with
  | nil => intro acc k h; simpa using h
  | cons t ts ih =>
    intro acc k h
    rw [List.foldl_cons]
    refine ih _ k ?_
    by_cases hk : lcStr t = k
    · rw [← hk] at h ⊢
      exact assocFind_assocInsert_self acc (lcStr t) 1
    · rw [assocFind_assocInsert_ne acc 1 hk]
      exact h

theorem seedFold_find_one :
    ∀ (tags : List String) (acc : List (String × ℚ)) (q : String), q ∈ tags →
      assocFind (tags.foldl (fun a t => assocInsert a (lcStr t) 1) acc) (lcStr q) = some 1 := by
  intro tags
  induction tags with
  | nil => intro acc q h; cases h
  | cons t ts ih =>
    intro acc q hq
    rw [List.foldl_cons]
    rcases List.mem_cons.mp hq with hq | hq
    · subst hq
      exact seedFold_preserve_one ts _ (lcStr q) (assocFind_assocInsert_self acc (lcStr q) 1)
    · exact ih _ q hq

theorem seedFold_keys :
    ∀ (tags : List String) (acc : List (String × ℚ)) (x : String),
      x ∈ keysOf (tags.foldl (fun a t => assocInsert a (lcStr t) 1) acc) →
      x ∈ keysOf acc ∨ x ∈ tags.map lcStr := by
  intro tags
  induction tags with
  | nil => intro acc x h; exact Or.inl (by simpa using h)
  | cons t ts ih =>
    intro acc x hx
    rw [List.foldl_cons] at hx
    rcases ih _ x hx with h | h
    · rcases mem_keysOf_assocInsert h with h2 | h2
      · exact Or.inl h2
      · exact Or.inr (by simp [h2])
    · refine Or.inr ?_
      rw [List.map_cons]
      exact List.mem_cons.mpr (Or.inr h)

theorem seedFold_nodup :
    ∀ (tags : List String) (acc : List (String × ℚ)),
      (keysOf acc).Nodup →
      (keysOf (tags.foldl (fun a t => assocInsert a (lcStr t) 1) acc)).Nodup := by
  intro tags
  induction tags with
  | nil => intro acc h; simpa using h
  | cons t ts ih =>
    intro acc h
    rw [List.foldl_cons]
    exact ih _ (keysOf_assocInsert_nodup h)

theorem nodup_subset_length {K S : List String} (hK : K.Nodup) (hsub : ∀ x ∈ K, x ∈ S) :
    K.length ≤ S.dedup.length := by
  have h1 : K.toFinset.card = K.length := List.toFinset_card_of_nodup hK
  have h2 : K.toFinset ⊆ S.toFinset := by
    intro x hx
    exact List.mem_toFinset.mpr (hsub x (List.mem_toFinset.mp hx))
  have h3 : S.toFinset.card = S.dedup.length := List.card_toFinset S
  calc K.length = K.toFinset.card := h1.symm
    _ ≤ S.toFinset.card := Finset.card_le_card h2
    _ = S.dedup.length := h3

theorem allRelatedLower_le_numNodes (nodes : TRT) :
    (allRelatedLower nodes).length ≤ numNodes nodes := by
  unfold allRelatedLower numNodes
  have hmap : (nodes.flatMap fun node => node.2.map fun e => lcStr e.1) =
      (nodes.flatMap fun node => node.2.map Prod.fst).map lcStr := by
    rw [List.map_flatMap]
    congr 1
    funext node
    rw [List.map_map]
    rfl
  rw [hmap]
  set N := nodes.flatMap fun node => node.2.map Prod.fst with hN
  have h1 : (N.map lcStr).dedup.length = (N.map lcStr).toFinset.card :=
    (List.card_toFinset _).symm
  have h2 : (N.map lcStr).toFinset = N.toFinset.image lcStr := by
    ext x; simp
  have h3 : (N.toFinset.image lcStr).card ≤ N.toFinset.card := Finset.card_image_le
  rw [h2] at h1
  have h4 : N.toFinset.card ≤ ((nodes.map Prod.fst) ++ N).toFinset.card := by
    refine Finset.card_le_card ?_
    intro x hx
    rw [List.toFinset_append]
    exact Finset.mem_union_right _ hx
  have h5 : ((nodes.map Prod.fst) ++ N).toFinset.card =
      ((nodes.map Prod.fst) ++ N).dedup.length := List.card_toFinset _
  omega

theorem expandFold_fuel (nodes : TRT) (maxDepth : ℕ) {fuel : ℕ} (hfuel : trtFuel nodes ≤ fuel) :
    ∀ (tags : List String) (expanded : List (String × ℚ)),
      tags.foldl
        (fun expanded qt => bfsLoop nodes maxDepth fuel [(lcStr qt, 0, 1)] [lcStr qt] expanded)
        expanded =
      tags.foldl
        (fun expanded qt =>
          bfsLoop nodes maxDepth (trtFuel nodes) [(lcStr qt, 0, 1)] [lcStr qt] expanded)
        expanded := by
  intro tags
  induction tags with
  | nil => intro expanded; rfl
  | cons t ts ih =>
    intro expanded
    rw [List.foldl_cons, List.foldl_cons]
    have hmu : (1 : ℕ) + countNotIn (allRelatedLower nodes) [lcStr t] ≤ trtFuel nodes := by
      have : countNotIn (allRelatedLower nodes) [lcStr t] ≤ (allRelatedLower nodes).length :=
        List.length_filter_le _ _
      unfold trtFuel
      omega
    rw [bfsLoop_fuel_irrel nodes maxDepth fuel (trtFuel nodes) [(lcStr t, 0, 1)] [lcStr t]
      expanded (by simpa using le_trans hmu hfuel) (by simpa using hmu)]
    exact ih _

theorem expandFold_keys (nodes : TRT) (maxDepth fuel : ℕ) (S : List String)
    (hA : ∀ x ∈ allRelatedLower nodes, x ∈ S) :
    ∀ (tags : List String) (expanded : List (String × ℚ)),
      (∀ x ∈ keysOf expanded, x ∈ S) →
      ∀ x ∈ keysOf
        (tags.foldl
          (fun expanded qt => bfsLoop nodes maxDepth fuel [(lcStr qt, 0, 1)] [lcStr qt] expanded)
          expanded), x ∈ S := by
  intro tags
  induction tags with
  | nil => intro expanded h x hx; exact h x hx
  | cons t ts ih =>
    intro expanded h x hx
    rw [List.foldl_cons] at hx
    refine ih _ ?_ x hx
    intro y hy
    rcases bfsLoop_keys nodes maxDepth fuel _ _ _ y hy with h2 | h2
    · exact h y h2
    · exact hA y h2

theorem expandFold_nodup (nodes : TRT) (maxDepth fuel : ℕ) :
    ∀ (tags : List String) (expanded : List (String × ℚ)),
      (keysOf expanded).Nodup →
      (keysOf
        (tags.foldl
          (fun expanded qt => bfsLoop nodes maxDepth fuel [(lcStr qt, 0, 1)] [lcStr qt] expanded)
          expanded)).Nodup := by
  intro tags
  induction tags with
  | nil => intro expanded h; exact h
  | cons t ts ih =>
    intro expanded h
    rw [List.foldl_cons]
    exact ih _ (bfsLoop_keys_nodup nodes maxDepth fuel _ _ _ h)

theorem expandFold_seed_one (nodes : TRT) (maxDepth fuel : ℕ)
    (hG : ∀ node ∈ nodes, ∀ e ∈ node.2, 0 ≤ e.2 ∧ e.2 ≤ 1) :
    ∀ (tags : List String) (expanded : List (String × ℚ)) (k : String),
      assocFind expanded k = some 1 →
      assocFind
        (tags.foldl
          (fun expanded qt => bfsLoop nodes maxDepth fuel [(lcStr qt, 0, 1)] [lcStr qt] expanded)
          expanded) k = some 1 := by
  intro tags
  induction tags with
  | nil => intro expanded k h; exact h
  | cons t ts ih =>
    intro expanded k h
    rw [List.foldl_cons]
    refine ih _ k ?_
    refine bfsLoop_seed_one nodes maxDepth hG fuel _ _ _ k ?_ h
    intro y hy
    simp only [List.mem_singleton] at hy
    subst hy
    norm_num

theorem dedup_append_length_le (a b : List String) :
    (a ++ b).dedup.length ≤ a.dedup.length + b.dedup.length := by
  have h1 : (a ++ b).dedup.length = (a ++ b).toFinset.card := (List.card_toFinset _).symm
  have h2 : (a ++ b).toFinset = a.toFinset ∪ b.toFinset := List.toFinset_append
  have h3 : (a.toFinset ∪ b.toFinset).card ≤ a.toFinset.card + b.toFinset.card :=
    Finset.card_union_le _ _
  have h4 : a.toFinset.card = a.dedup.length := List.card_toFinset a
  have h5 : b.toFinset.card = b.dedup.length := List.card_toFinset b
  rw [h2] at h1
  omega

/-- Claim C9.  For every tag-relationship graph whose edge strengths
lie in [0, 1] (the data model prescribes (0, 1]), every query tag list
and every finite max_depth: the expansion loop terminates -- the
breadth-first traversal of each seed stabilizes within trtFuel
iterations, so running it with any larger fuel returns the same map --
and the returned map has size at most |nodes| + |query_tags|, where
|nodes| counts the distinct tags occurring in the graph (its vertices),
and every seed tag is present, lowercased, at strength exactly 1.0. -/
theorem expandTags_terminates (nodes : TRT) (queryTags : List String) (maxDepth : ℕ)
    (hG : ∀ node ∈ nodes, ∀ e ∈ node.2, 0 ≤ e.2 ∧ e.2 ≤ 1) :
    (∀ fuel, trtFuel nodes ≤ fuel →
      expandTagsWithFuel nodes queryTags maxDepth fuel = expandTags nodes queryTags maxDepth) ∧
    (expandTags nodes queryTags maxDepth).length ≤ numNodes nodes + queryTags.length ∧
    (∀ q ∈ queryTags, assocFind (expandTags nodes queryTags maxDepth) (lcStr q) = some 1) := by
  have hseedsub : ∀ x ∈ keysOf (queryTags.foldl
      (fun acc tag => assocInsert acc (lcStr tag) (1 : ℚ)) []), x ∈ queryTags.map lcStr := by
    intro x hx
    rcases seedFold_keys queryTags [] x hx with h | h
    · cases h
    · exact h
  have hseednodup : (keysOf (queryTags.foldl
      (fun acc tag => assocInsert acc (lcStr tag) (1 : ℚ)) [])).Nodup :=
    seedFold_nodup queryTags [] (by simp)
  refine ⟨?_, ?_, ?_⟩
  · intro fuel hf
    unfold expandTagsWithFuel expandTags
    by_cases hc : maxDepth = 0 ∨ nodes = []
    · simp only [hc, if_true]
    · simp only [hc, if_false]
      exact expandFold_fuel nodes maxDepth hf queryTags _
  · unfold expandTags
    by_cases hc : maxDepth = 0 ∨ nodes = []
    · simp only [hc, if_true]
      have hlen : (queryTags.foldl (fun acc tag => assocInsert acc (lcStr tag) (1 : ℚ)) []).length =
          (keysOf (queryTags.foldl (fun acc tag => assocInsert acc (lcStr tag) (1 : ℚ)) [])).length :=
        (List.length_map _ _).symm
      rw [hlen]
      have := nodup_subset_length hseednodup hseedsub
      have hd : (queryTags.map lcStr).dedup.length ≤ queryTags.length := by
        calc (queryTags.map lcStr).dedup.length ≤ (queryTags.map lcStr).length :=
              List.Sublist.length_le (List.dedup_sublist _)
          _ = queryTags.length := List.length_map _ _
      omega
    · simp only [hc, if_false]
      set final := queryTags.foldl
        (fun expanded qt =>
          bfsLoop nodes maxDepth (trtFuel nodes) [(lcStr qt, 0, 1)] [lcStr qt] expanded)
        (queryTags.foldl (fun acc tag => assocInsert acc (lcStr tag) (1 : ℚ)) []) with hfinal
    -- keys of final are within seeds keys or allRelatedLower
      have hkeys : ∀ x ∈ keysOf final,
          x ∈ queryTags.map lcStr ++ allRelatedLower nodes := by
        intro x hx
        refine expandFold_keys nodes maxDepth (trtFuel nodes) _
          (fun y hy => List.mem_append.mpr (Or.inr hy)) queryTags _ ?_ x hx
        intro y hy
        exact List.mem_append.mpr (Or.inl (hseedsub y hy))
      have hnodup : (keysOf final).Nodup :=
        expandFold_nodup nodes maxDepth (trtFuel nodes) queryTags _ hseednodup
      have hlen : final.length = (keysOf final).length := (List.length_map _ _).symm
      rw [hlen]
      have h1 := nodup_subset_length hnodup hkeys
      have h2 := dedup_append_length_le (queryTags.map lcStr) (allRelatedLower nodes)
      have h3 : (queryTags.map lcStr).dedup.length ≤ queryTags.length := by
        calc (queryTags.map lcStr).dedup.length ≤ (queryTags.map lcStr).length :=
              List.Sublist.length_le (List.dedup_sublist _)
          _ = queryTags.length := List.length_map _ _
      have h4 : (allRelatedLower nodes).dedup.length = (allRelatedLower nodes).length := by
        rw [List.Nodup.dedup]
        unfold allRelatedLower
        exact List.nodup_dedup _
      have h5 := allRelatedLower_le_numNodes nodes
      omega
  · intro q hq
    unfold expandTags
    by_cases hc : maxDepth = 0 ∨ nodes = []
    · simp only [hc, if_true]
      exact seedFold_find_one queryTags [] q hq
    · simp only [hc, if_false]
      exact expandFold_seed_one nodes maxDepth (trtFuel nodes) hG queryTags _ (lcStr q)
        (seedFold_find_one queryTags [] q hq)

theorem expandTags_terminates_witness :
    (∀ fuel, trtFuel cycleTRT ≤ fuel →
      expandTagsWithFuel cycleTRT ["a"] 10 fuel = expandTags cycleTRT ["a"] 10) ∧
    (expandTags cycleTRT ["a"] 10).length ≤ numNodes cycleTRT + (["a"] : List String).length ∧
    (∀ q ∈ (["a"] : List String), assocFind (expandTags cycleTRT ["a"] 10) (lcStr q) = some 1) :=
  expandTags_terminates cycleTRT ["a"] 10 (by norm_num [cycleTRT])

/-! ## Claim C5: case-insensitivity of tag handling -/

theorem foldl_comp_lc {β : Type} (g : β → String → β) :
    ∀ (q q' : List String), q.map lcStr = q'.map lcStr →
      ∀ acc, q.foldl (fun a t => g a (lcStr t)) acc = q'.foldl (fun a t => g a (lcStr t)) acc := by
  intro q
  induction q with
  | nil =>
    intro q' h acc
    cases q' with
    | nil => rfl
    | cons t ts => simp at h
  | cons t ts ih =>
    intro q' h acc
    cases q' with
    | nil => simp at h
    | cons t' ts' =>
      simp only [List.map_cons, List.cons.injEq] at h
      rw [List.foldl_cons, List.foldl_cons, h.1]
      exact ih ts' h.2 _

theorem expandTags_query_case (nodes : TRT) (d : ℕ)
    (q q' : List String) (h : q.map lcStr = q'.map lcStr) :
    expandTags nodes q d = expandTags nodes q' d := by
  unfold expandTags
  have hseed := foldl_comp_lc (fun a t => assocInsert a t (1 : ℚ)) q q' h []
  simp only at hseed
  rw [hseed]
  by_cases hc : d = 0 ∨ nodes = []
  · simp only [hc, if_true]
  · simp only [hc, if_false]
    exact foldl_comp_lc (fun a t => bfsLoop nodes d (trtFuel nodes) [(t, 0, 1)] [t] a) q q' h _

theorem seedOnly_query_case (q q' : List String) (h : q.map lcStr = q'.map lcStr) :
    seedOnly q = seedOnly q' := by
  unfold seedOnly
  exact foldl_comp_lc (fun a t => assocInsert a t (1 : ℚ)) q q' h []

theorem matchEntity_query_case (tagField : String) (trt : Option TRT) (item : J)
    (index : ℕ) (query : Query) (qt qt' : List String)
    (h : qt.map lcStr = qt'.map lcStr) :
    matchEntity tagField trt item index query qt =
      matchEntity tagField trt item index query qt' := by
  have hlen : qt.length = qt'.length := by
    have := congrArg List.length h
    simpa using this
  unfold matchEntity
  have hexp : expandedMapFor trt query qt = expandedMapFor trt query qt' := by
    unfold expandedMapFor
    rcases trt with _ | nodes <;> rcases query.options.trtDepth with _ | depth
    · exact seedOnly_query_case qt qt' h
    · exact seedOnly_query_case qt qt' h
    · exact seedOnly_query_case qt qt' h
    · by_cases hd : 0 < depth
      · simp only [hd, if_true]
        exact expandTags_query_case nodes depth qt qt' h
      · simp only [hd, if_false]
        exact seedOnly_query_case qt qt' h
  simp only [hexp, hlen]

theorem tagFold_lc_congr (expanded : List (String × ℚ)) :
    ∀ (ts ts' : List String), ts.map lcStr = ts'.map lcStr →
      ∀ (acc acc' : List String × ℚ × ℚ),
        acc.1.length = acc'.1.length → acc.2 = acc'.2 →
        ((ts.foldl (tagStep expanded) acc).1.length =
          (ts'.foldl (tagStep expanded) acc').1.length ∧
         (ts.foldl (tagStep expanded) acc).2 =
          (ts'.foldl (tagStep expanded) acc').2) := by
  intro ts
  induction ts with
  | nil =>
    intro ts' h acc acc' h1 h2
    cases ts' with
    | nil => exact ⟨h1, h2⟩
    | cons t ts2 => simp at h
  | cons t ts2 ih =>
    intro ts' h acc acc' h1 h2
    cases ts' with
    | nil => simp at h
    | cons t' ts2' =>
      simp only [List.map_cons, List.cons.injEq] at h
      rw [List.foldl_cons, List.foldl_cons]
      refine ih ts2' h.2 _ _ ?_ ?_ <;>
        simp only [tagStep, h.1] <;> cases assocFind expanded (lcStr t') <;>
        simp [h1, h2]

theorem matchEntity_item_case (tagField : String) (trt : Option TRT)
    (index : ℕ) (query : Query) (qt : List String) (item item' : J)
    (h : (extractTags item tagField).map lcStr = (extractTags item' tagField).map lcStr) :
    Option.map (fun m => m.score) (matchEntity tagField trt item index query qt) =
      Option.map (fun m => m.score) (matchEntity tagField trt item' index query qt) ∧
    Option.map (fun m => m.details.map (fun dt => (dt.matchedTags.length, dt.totalTags)))
        (matchEntity tagField trt item index query qt) =
      Option.map (fun m => m.details.map (fun dt => (dt.matchedTags.length, dt.totalTags)))
        (matchEntity tagField trt item' index query qt) := by
  have hlen : (extractTags item tagField).length = (extractTags item' tagField).length := by
    have := congrArg List.length h
    simpa using this
  unfold matchEntity
  by_cases he : (extractTags item tagField).isEmpty
  · have he' : (extractTags item' tagField).isEmpty := by
      rw [List.isEmpty_iff_length_eq_zero] at he ⊢
      omega
    simp [he, he']
  · have he' : ¬ (extractTags item' tagField).isEmpty := by
      rw [List.isEmpty_iff_length_eq_zero] at he ⊢
      omega
    simp only [he, he', if_false, Bool.false_eq_true]
    set E := expandedMapFor trt query qt with hE
    obtain ⟨hflen, hfval⟩ := tagFold_lc_congr E
      (extractTags item tagField) (extractTags item' tagField) h ([], 0, 0) ([], 0, 0) rfl rfl
    by_cases hm : ((extractTags item tagField).foldl (tagStep E) ([], 0, 0)).1.isEmpty = true
    · have hm' : ((extractTags item' tagField).foldl (tagStep E) ([], 0, 0)).1.isEmpty = true := by
        rw [List.isEmpty_iff_length_eq_zero] at hm ⊢
        omega
      simp only [hm, hm']
      constructor <;> rfl
    · have hm2 : ((extractTags item tagField).foldl (tagStep E) ([], 0, 0)).1.isEmpty = false := by
        simpa using hm
      have hm2' : ((extractTags item' tagField).foldl (tagStep E) ([], 0, 0)).1.isEmpty = false := by
        rw [List.isEmpty_eq_false_iff_exists_mem] at hm2 ⊢
        rcases hm2 with ⟨x, hx⟩
        have : ((extractTags item' tagField).foldl (tagStep E) ([], 0, 0)).1.length ≠ 0 := by
          have hpos : 0 < ((extractTags item tagField).foldl (tagStep E) ([], 0, 0)).1.length :=
            List.length_pos_of_mem hx
          omega
        rcases List.exists_mem_of_length_pos (Nat.pos_of_ne_zero this) with ⟨y, hy⟩
        exact ⟨y, hy⟩
      simp only [hm2, hm2', Bool.false_eq_true, if_false]
      have htot : ((extractTags item tagField).foldl (tagStep E) ([], 0, 0)).2.1 =
          ((extractTags item' tagField).foldl (tagStep E) ([], 0, 0)).2.1 :=
        congrArg Prod.fst hfval
      constructor
      · simp only [Option.map_some']
        congr 1
        rw [hflen, htot]
      · simp [hlen]
        simpa using hflen

/-- Claim C5, amended.  Tag comparisons are case-insensitive for query
tags and item tags: replacing the query tag list by any list with the
same lowercasing leaves expand_tags and match_entity unchanged, and
replacing a record's tag list by one with the same lowercasing leaves
the match decision and the score unchanged (the reported matched_tags
keep the item's original spelling).  The invariance does NOT extend to
the case of the tag-relationship-tree node keys, which
TagRelationshipTree::new stores verbatim and expand_tags looks up with
lowercased tags (see the counterexample). -/
theorem tagged_case_insensitive :
    (∀ (nodes : TRT) (d : ℕ) (q q' : List String), q.map lcStr = q'.map lcStr →
      expandTags nodes q d = expandTags nodes q' d) ∧
    (∀ (tagField : String) (trt : Option TRT) (item : J) (index : ℕ) (query : Query)
      (qt qt' : List String), qt.map lcStr = qt'.map lcStr →
      matchEntity tagField trt item index query qt =
        matchEntity tagField trt item index query qt') ∧
    (∀ (tagField : String) (trt : Option TRT) (index : ℕ) (query : Query)
      (qt : List String) (item item' : J),
      (extractTags item tagField).map lcStr = (extractTags item' tagField).map lcStr →
      Option.map (fun m => m.score) (matchEntity tagField trt item index query qt) =
        Option.map (fun m => m.score) (matchEntity tagField trt item' index query qt)) :=
  ⟨fun nodes d q q' h => expandTags_query_case nodes d q q' h,
   fun tagField trt item index query qt qt' h =>
     matchEntity_query_case tagField trt item index query qt qt' h,
   fun tagField trt index query qt item item' h =>
     (matchEntity_item_case tagField trt index query qt item item' h).1⟩

/-- Witness for claim C5 at concrete inputs: query AI versus ai on a
tree, query Rust versus rust, and an item tagged RUST versus rust. -/
theorem tagged_case_insensitive_witness :
    expandTags [("x", [("ml", (0.7 : ℚ))])] ["AI"] 1 =
      expandTags [("x", [("ml", (0.7 : ℚ))])] ["ai"] 1 ∧
    matchEntity "tags" none (J.jobj [("tags", J.jarr [J.jstr "RUST"])]) 0 {} ["Rust"] =
      matchEntity "tags" none (J.jobj [("tags", J.jarr [J.jstr "RUST"])]) 0 {} ["rust"] ∧
    Option.map (fun m => m.score)
        (matchEntity "tags" none (J.jobj [("tags", J.jarr [J.jstr "RUST"])]) 0 {} ["rust"]) =
      Option.map (fun m => m.score)
        (matchEntity "tags" none (J.jobj [("tags", J.jarr [J.jstr "rust"])]) 0 {} ["rust"]) :=
  ⟨tagged_case_insensitive.1 _ _ _ _ (by decide),
   tagged_case_insensitive.2.1 _ _ _ _ _ _ _ (by decide),
   tagged_case_insensitive.2.2 _ _ _ _ _ _ _ (by decide)⟩

/-- Counterexample for claim C5 as stated: two trees differing only in
the letter case of the node key (AI versus ai, same lowercase) give
different expansions for the query tag ai at depth 1 -- the uppercase
node key is never found because expand_tags looks up lowercased tags,
so ml is not expanded. -/
theorem trt_node_case_cex :
    expandTags [("AI", [("ml", (0.7 : ℚ))])] ["ai"] 1 = [("ai", 1)] ∧
    expandTags [("ai", [("ml", (0.7 : ℚ))])] ["ai"] 1 = [("ai", 1), ("ml", 0.7)] ∧
    lcStr "AI" = lcStr "ai" ∧
    ([(("ai" : String), (1 : ℚ))] ≠ [("ai", 1), ("ml", 0.7)]) := by
  refine ⟨?_, ?_, by decide, ?_⟩
  · norm_num +decide [expandTags, bfsLoop, processEdges, trtFuel, allRelatedLower,
      assocFind, assocInsert, upsertMax, lcStr, lcChar]
  · norm_num +decide [expandTags, bfsLoop, processEdges, trtFuel, allRelatedLower,
      assocFind, assocInsert, upsertMax, lcStr, lcChar]
  · intro hc
    have := congrArg List.length hc
    simp at this

/-! ## Claim C6: the tagged score formula -/

/-- The match_entity fold equals the declarative filter-and-sum
characterization. -/
theorem tagFold_spec (E : List (String × ℚ)) :
    ∀ (ts : List String) (acc : List String × ℚ × ℚ),
      (ts.foldl (tagStep E) acc).1 = acc.1 ++ matchedOf E ts ∧
      (ts.foldl (tagStep E) acc).2.1 = acc.2.1 + strengthSumOf E ts := by
  intro ts
  induction ts with
  | nil => intro acc; simp [matchedOf, strengthSumOf]
  | cons t ts ih =>
    intro acc
    rw [List.foldl_cons]
    cases hf : assocFind E (lcStr t) with
    | none =>
      have hstep : tagStep E acc t = acc := by simp [tagStep, hf]
      rw [hstep]
      have hmt : matchedOf E (t :: ts) = matchedOf E ts := by
        simp [matchedOf, List.filter_cons, hf]
      have hst : strengthSumOf E (t :: ts) = strengthSumOf E ts := by
        simp [strengthSumOf, hmt]
      rw [hmt, hst]
      exact ih acc
    | some s =>
      have hstep : tagStep E acc t = (acc.1 ++ [t], acc.2.1 + s, max acc.2.2 s) := by
        simp [tagStep, hf]
      rw [hstep]
      have hmt : matchedOf E (t :: ts) = t :: matchedOf E ts := by
        simp [matchedOf, List.filter_cons, hf]
      have hst : strengthSumOf E (t :: ts) = s + strengthSumOf E ts := by
        simp [strengthSumOf, hmt, hf]
      obtain ⟨h1, h2⟩ := ih (acc.1 ++ [t], acc.2.1 + s, max acc.2.2 s)
      constructor
      · rw [h1, hmt]
        simp
      · rw [h2, hst]
        simp only
        ring

/-- Claim C6.  Whenever a record's tags match at least one entry of the
expansion map, match_entity returns a match whose raw score is
base times avg_strength with base = matched_count / |query.tags| and
avg_strength = total_strength / matched_count, carrying a Tag detail
with the matched tags and total_tags = |item_tags|; and in the no-TRT
scenario with query tags [rust, tutorial], a record with both tags
scores 1.0, a record with only rust scores 0.5, and a record with
neither is absent. -/
theorem matchEntity_score_formula :
    (∀ (tagField : String) (trt : Option TRT) (item : J) (index : ℕ) (query : Query)
      (qt : List String),
      matchedOf (expandedMapFor trt query qt) (extractTags item tagField) ≠ [] →
      ∃ m, matchEntity tagField trt item index query qt = some m ∧
        m.score =
          ((matchedOf (expandedMapFor trt query qt) (extractTags item tagField)).length : ℚ) /
              (qt.length : ℚ) *
            (strengthSumOf (expandedMapFor trt query qt) (extractTags item tagField) /
              ((matchedOf (expandedMapFor trt query qt) (extractTags item tagField)).length : ℚ)) ∧
        m.details = [⟨matchedOf (expandedMapFor trt query qt) (extractTags item tagField),
          (extractTags item tagField).length⟩]) ∧
    (Option.map (fun m => m.score) (matchEntity "tags" none
        (J.jobj [("tags", J.jarr [J.jstr "rust", J.jstr "tutorial"])]) 0 {} ["rust", "tutorial"]) =
      some 1) ∧
    (Option.map (fun m => m.score) (matchEntity "tags" none
        (J.jobj [("tags", J.jarr [J.jstr "rust", J.jstr "search"])]) 1 {} ["rust", "tutorial"]) =
      some 0.5) ∧
    (matchEntity "tags" none (J.jobj [("tags", J.jarr [J.jstr "ml", J.jstr "ai"])]) 2 {}
        ["rust", "tutorial"] = none) := by
  refine ⟨?_, ?_, ?_, ?_⟩
  · intro tagField trt item index query qt hne
    unfold matchEntity
    have hit : (extractTags item tagField).isEmpty = false := by
      rcases hit2 : extractTags item tagField with _ | ⟨t, ts⟩
      · rw [hit2] at hne
        simp [matchedOf] at hne
      · rfl
    simp only [hit, Bool.false_eq_true, if_false]
    obtain ⟨h1, h2⟩ := tagFold_spec (expandedMapFor trt query qt)
      (extractTags item tagField) ([], 0, 0)
    simp only [List.nil_append] at h1
    simp only at h2
    have hmne : ((extractTags item tagField).foldl
        (tagStep (expandedMapFor trt query qt)) ([], 0, 0)).1.isEmpty = false := by
      rw [h1]
      rcases hm : matchedOf (expandedMapFor trt query qt) (extractTags item tagField) with _ | _
      · exact absurd hm hne
      · rfl
    simp only [hmne, Bool.false_eq_true, if_false]
    refine ⟨_, rfl, ?_, ?_⟩
    · rw [h1, h2]
      ring_nf
    · rw [h1]
  · norm_num +decide [matchEntity, expandedMapFor, seedOnly, tagStep, extractTags,
      J.getKey, assocFind, assocInsert, lcStr, lcChar, List.filterMap_cons,
      List.filterMap_nil, List.foldl_cons, List.foldl_nil]
  · norm_num +decide [matchEntity, expandedMapFor, seedOnly, tagStep, extractTags,
      J.getKey, assocFind, assocInsert, lcStr, lcChar, List.filterMap_cons,
      List.filterMap_nil, List.foldl_cons, List.foldl_nil]
  · norm_num +decide [matchEntity, expandedMapFor, seedOnly, tagStep, extractTags,
      J.getKey, assocFind, assocInsert, lcStr, lcChar, List.filterMap_cons,
      List.filterMap_nil, List.foldl_cons, List.foldl_nil]

/-- Witness for claim C6 at a concrete input: a record tagged [rust]
against query tags [rust, tutorial] with no TRT. -/
theorem matchEntity_score_formula_witness :
    ∃ m, matchEntity "tags" none (J.jobj [("tags", J.jarr [J.jstr "rust"])]) 0 {}
        ["rust", "tutorial"] = some m ∧
      m.score = ((matchedOf (expandedMapFor none {} ["rust", "tutorial"])
            (extractTags (J.jobj [("tags", J.jarr [J.jstr "rust"])]) "tags")).length : ℚ) /
          (((["rust", "tutorial"] : List String)).length : ℚ) *
        (strengthSumOf (expandedMapFor none {} ["rust", "tutorial"])
            (extractTags (J.jobj [("tags", J.jarr [J.jstr "rust"])]) "tags") /
          ((matchedOf (expandedMapFor none {} ["rust", "tutorial"])
            (extractTags (J.jobj [("tags", J.jarr [J.jstr "rust"])]) "tags")).length : ℚ)) ∧
      m.details = [⟨matchedOf (expandedMapFor none {} ["rust", "tutorial"])
          (extractTags (J.jobj [("tags", J.jarr [J.jstr "rust"])]) "tags"),
        (extractTags (J.jobj [("tags", J.jarr [J.jstr "rust"])]) "tags").length⟩] :=
  matchEntity_score_formula.1 "tags" none _ 0 {} ["rust", "tutorial"] (by
    norm_num +decide [matchedOf, expandedMapFor, seedOnly, extractTags, J.getKey,
      assocFind, assocInsert, lcStr, lcChar, List.filterMap_cons, List.filterMap_nil,
      List.filter_cons, List.filter_nil])

/-! ## Claim C8: MinMax normalization -/

theorem foldl_min_le_init (l : List ℚ) : ∀ a : ℚ, l.foldl min a ≤ a := by
  induction l with
  | nil => intro a; exact le_refl a
  | cons b l ih =>
    intro a
    rw [List.foldl_cons]
    exact le_trans (ih (min a b)) (min_le_left a b)

theorem foldl_min_le_mem (l : List ℚ) : ∀ (a x : ℚ), x ∈ l → l.foldl min a ≤ x := by
  induction l with
  | nil => intro a x hx; cases hx
  | cons b l ih =>
    intro a x hx
    rw [List.foldl_cons]
    rcases List.mem_cons.mp hx with hx | hx
    · exact le_trans (foldl_min_le_init l (min a b)) (hx ▸ min_le_right a b)
    · exact ih (min a b) x hx

theorem le_foldl_max_init (l : List ℚ) : ∀ a : ℚ, a ≤ l.foldl max a := by
  induction l with
  | nil => intro a; exact le_refl a
  | cons b l ih =>
    intro a
    rw [List.foldl_cons]
    exact le_trans (le_max_left a b) (ih (max a b))

theorem le_foldl_max_mem (l : List ℚ) : ∀ (a x : ℚ), x ∈ l → x ≤ l.foldl max a := by
  induction l with
  | nil => intro a x hx; cases hx
  | cons b l ih =>
    intro a x hx
    rw [List.foldl_cons]
    rcases List.mem_cons.mp hx with hx | hx
    · exact le_trans (hx ▸ le_max_right a b) (le_foldl_max_init l (max a b))
    · exact ih (max a b) x hx

theorem foldl_min_const (l : List ℚ) : ∀ a : ℚ, (∀ x ∈ l, x = a) → l.foldl min a = a := by
  induction l with
  | nil => intro a _; rfl
  | cons b l ih =>
    intro a h
    rw [List.foldl_cons]
    have hb : b = a := h b (List.mem_cons.mpr (Or.inl rfl))
    rw [hb, min_self]
    exact ih a (fun x hx => h x (List.mem_cons.mpr (Or.inr hx)))

theorem foldl_max_const (l : List ℚ) : ∀ a : ℚ, (∀ x ∈ l, x = a) → l.foldl max a = a := by
  induction l with
  | nil => intro a _; rfl
  | cons b l ih =>
    intro a h
    rw [List.foldl_cons]
    have hb : b = a := h b (List.mem_cons.mpr (Or.inl rfl))
    rw [hb, max_self]
    exact ih a (fun x hx => h x (List.mem_cons.mpr (Or.inr hx)))

/-- Claim C8.  For a non-empty per-searcher list (scores are exact
rationals, hence finite): when min < max every normalized score equals
(score - min) / (max - min); when all raw scores are equal every
normalized score is exactly 1.0; and in either case every normalized
score lies in [0, 1]. -/
theorem normalizeList_minMax {ι δ : Type} (m0 : EMatch ι δ) (rest : List (EMatch ι δ)) :
    (((rest.map (fun m => m.score)).foldl min m0.score <
        (rest.map (fun m => m.score)).foldl max m0.score) →
      normalizeList .minMax (m0 :: rest) =
        (m0 :: rest).map (fun m =>
          { m with score := (m.score - (rest.map (fun m => m.score)).foldl min m0.score) /
              ((rest.map (fun m => m.score)).foldl max m0.score -
                (rest.map (fun m => m.score)).foldl min m0.score) })) ∧
    ((∀ m ∈ m0 :: rest, m.score = m0.score) →
      normalizeList .minMax (m0 :: rest) =
        (m0 :: rest).map (fun m => { m with score := 1 })) ∧
    (∀ m ∈ normalizeList .minMax (m0 :: rest), 0 ≤ m.score ∧ m.score ≤ 1) := by
  set minS := (rest.map (fun m => m.score)).foldl min m0.score with hmin
  set maxS := (rest.map (fun m => m.score)).foldl max m0.score with hmax
  have hlo : ∀ m ∈ m0 :: rest, minS ≤ m.score := by
    intro m hm
    rcases List.mem_cons.mp hm with hm | hm
    · rw [hm]; exact foldl_min_le_init _ _
    · exact foldl_min_le_mem _ _ _ (List.mem_map_of_mem _ hm)
  have hhi : ∀ m ∈ m0 :: rest, m.score ≤ maxS := by
    intro m hm
    rcases List.mem_cons.mp hm with hm | hm
    · rw [hm]; exact le_foldl_max_init _ _
    · exact le_foldl_max_mem _ _ _ (List.mem_map_of_mem _ hm)
  refine ⟨?_, ?_, ?_⟩
  · intro hlt
    unfold normalizeList
    simp only [← hmin, ← hmax]
    rw [if_pos (by linarith)]
  · intro hall
    unfold normalizeList
    simp only [← hmin, ← hmax]
    have h1 : minS = m0.score := foldl_min_const _ _ (by
      intro x hx
      rcases List.mem_map.mp hx with ⟨m, hm, rfl⟩
      exact hall m (List.mem_cons.mpr (Or.inr hm)))
    have h2 : maxS = m0.score := foldl_max_const _ _ (by
      intro x hx
      rcases List.mem_map.mp hx with ⟨m, hm, rfl⟩
      exact hall m (List.mem_cons.mpr (Or.inr hm)))
    rw [if_neg (by rw [h1, h2]; linarith)]
  · intro m hm
    unfold normalizeList at hm
    simp only [← hmin, ← hmax] at hm
    by_cases hlt : 0 < maxS - minS
    · rw [if_pos hlt] at hm
      rcases List.mem_map.mp hm with ⟨m2, hm2, rfl⟩
      constructor
      · exact div_nonneg (by linarith [hlo m2 hm2]) (by linarith)
      · rw [div_le_one hlt]
        linarith [hhi m2 hm2]
    · rw [if_neg hlt] at hm
      rcases List.mem_map.mp hm with ⟨m2, hm2, rfl⟩
      norm_num

/-- Witness for claim C8 at a concrete input: two matches with raw
scores 2 and 4. -/
theorem normalizeList_minMax_witness :
    (([wm1].map (fun m => m.score)).foldl min wm0.score <
      ([wm1].map (fun m => m.score)).foldl max wm0.score) ∧
    normalizeList .minMax [wm0, wm1] =
      [wm0, wm1].map (fun m =>
        { m with score := (m.score - ([wm1].map (fun m => m.score)).foldl min wm0.score) /
            (([wm1].map (fun m => m.score)).foldl max wm0.score -
              ([wm1].map (fun m => m.score)).foldl min wm0.score) }) :=
  ⟨by norm_num [wm0, wm1], (normalizeList_minMax wm0 [wm1]).1 (by norm_num [wm0, wm1])⟩

/-! ## Claim C7: the weighted merge -/

theorem scoreAt_mergeStep {ι δ : Type} (w : ℚ) (merged : List (ℕ × EMatch ι δ))
    (m : EMatch ι δ) (id : ℕ) :
    scoreAt (mergeStep w merged m) id =
      scoreAt merged id + (if m.id = id then m.score * w else 0) := by
  unfold mergeStep scoreAt
  by_cases hid : m.id = id
  · subst hid
    rw [assocFind_assocInsert_self]
    cases hf : assocFind merged m.id with
    | none => simp [hf]
    | some e => simp [hf]
  · rw [assocFind_assocInsert_ne _ _ hid]
    simp [hid]

theorem scoreAt_mergeFold {ι δ : Type} (w : ℚ) (id : ℕ) :
    ∀ (ms : List (EMatch ι δ)) (merged : List (ℕ × EMatch ι δ)),
      scoreAt (ms.foldl (mergeStep w) merged) id =
        scoreAt merged id + ((ms.filter (fun m => m.id = id)).map (fun m => m.score)).sum * w := by
  intro ms
  induction ms with
  | nil => intro merged; simp
  | cons m ms ih =>
    intro merged
    rw [List.foldl_cons, ih, scoreAt_mergeStep]
    by_cases hid : m.id = id
    · simp only [List.filter_cons, hid]
      simp
      ring
    · simp only [List.filter_cons, hid]
      simp [hid]

theorem mem_assocInsert {κ β : Type} [DecidableEq κ] {m : List (κ × β)} {k : κ} {v : β}
    {p : κ × β} (hp : p ∈ assocInsert m k v) : p ∈ m ∨ p = (k, v) := by
  induction m with
  | nil => simpa [assocInsert] using hp
  | cons q rest ih =>
    by_cases hq : q.1 = k
    · rw [assocInsert, if_pos hq] at hp
      rcases List.mem_cons.mp hp with hp | hp
      · right
        rw [hp, hq]
      · exact Or.inl (List.mem_cons.mpr (Or.inr hp))
    · rw [assocInsert, if_neg hq] at hp
      rcases List.mem_cons.mp hp with hp | hp
      · exact Or.inl (List.mem_cons.mpr (Or.inl hp))
      · rcases ih hp with h | h
        · exact Or.inl (List.mem_cons.mpr (Or.inr h))
        · exact Or.inr h

theorem assocFind_of_mem_nodup {κ β : Type} [DecidableEq κ] :
    ∀ {m : List (κ × β)}, (keysOf m).Nodup → ∀ {p : κ × β}, p ∈ m →
      assocFind m p.1 = some p.2 := by
  intro m
  induction m with
  | nil => intro _ p hp; cases hp
  | cons q rest ih =>
    intro hn p hp
    rw [keysOf_cons, List.nodup_cons] at hn
    rcases List.mem_cons.mp hp with hp | hp
    · rw [hp, assocFind, if_pos rfl]
    · have hq : ¬ (q.1 = p.1) := by
        intro hc
        exact hn.1 (hc ▸ List.mem_map_of_mem _ hp)
      rw [assocFind, if_neg hq]
      exact ih hn.2 hp

theorem mergeStep_entry_id {ι δ : Type} (w : ℚ) (merged : List (ℕ × EMatch ι δ))
    (m : EMatch ι δ) (hinv : ∀ p ∈ merged, p.2.id = p.1) :
    ∀ p ∈ mergeStep w merged m, p.2.id = p.1 := by
  intro p hp
  unfold mergeStep at hp
  rcases mem_assocInsert hp with h | h
  · exact hinv p h
  · rw [h]
    cases hf : assocFind merged m.id with
    | none => simp [hf]
    | some e =>
      have : e.id = m.id := hinv (m.id, e) (assocFind_some_mem hf)
      simp [hf, this]

theorem mergeStep_nodup {ι δ : Type} (w : ℚ) (merged : List (ℕ × EMatch ι δ))
    (m : EMatch ι δ) (h : (keysOf merged).Nodup) :
    (keysOf (mergeStep w merged m)).Nodup := by
  unfold mergeStep
  exact keysOf_assocInsert_nodup h

theorem mergeFold_entry_id {ι δ : Type} (w : ℚ) :
    ∀ (ms : List (EMatch ι δ)) (merged : List (ℕ × EMatch ι δ)),
      (∀ p ∈ merged, p.2.id = p.1) →
      ∀ p ∈ ms.foldl (mergeStep w) merged, p.2.id = p.1 := by
  intro ms
  induction ms with
  | nil => intro merged h; exact h
  | cons m ms ih =>
    intro merged h
    rw [List.foldl_cons]
    exact ih _ (mergeStep_entry_id w merged m h)

theorem mergeFold_nodup {ι δ : Type} (w : ℚ) :
    ∀ (ms : List (EMatch ι δ)) (merged : List (ℕ × EMatch ι δ)),
      (keysOf merged).Nodup →
      (keysOf (ms.foldl (mergeStep w) merged)).Nodup := by
  intro ms
  induction ms with
  | nil => intro merged h; exact h
  | cons m ms ih =>
    intro merged h
    rw [List.foldl_cons]
    exact ih _ (mergeStep_nodup w merged m h)

theorem mergeMapOf_entry_id {ι δ : Type} (query : Query) :
    ∀ (results : List (SearcherKind × List (EMatch ι δ))) (merged : List (ℕ × EMatch ι δ)),
      (∀ p ∈ merged, p.2.id = p.1) →
      ∀ p ∈ results.foldl
        (fun merged kr => kr.2.foldl (mergeStep (weightFor query kr.1)) merged) merged,
        p.2.id = p.1 := by
  intro results
  induction results with
  | nil => intro merged h; exact h
  | cons kr results ih =>
    intro merged h
    rw [List.foldl_cons]
    exact ih _ (mergeFold_entry_id _ kr.2 merged h)

theorem mergeMapOf_nodup {ι δ : Type} (query : Query) :
    ∀ (results : List (SearcherKind × List (EMatch ι δ))) (merged : List (ℕ × EMatch ι δ)),
      (keysOf merged).Nodup →
      (keysOf (results.foldl
        (fun merged kr => kr.2.foldl (mergeStep (weightFor query kr.1)) merged) merged)).Nodup := by
  intro results
  induction results with
  | nil => intro merged h; exact h
  | cons kr results ih =>
    intro merged h
    rw [List.foldl_cons]
    exact ih _ (mergeFold_nodup _ kr.2 merged h)

theorem scoreAt_results {ι δ : Type} (query : Query) (id : ℕ) :
    ∀ (results : List (SearcherKind × List (EMatch ι δ))) (merged : List (ℕ × EMatch ι δ)),
      scoreAt (results.foldl
        (fun merged kr => kr.2.foldl (mergeStep (weightFor query kr.1)) merged) merged) id =
      scoreAt merged id + contributionOf results query id := by
  intro results
  induction results with
  | nil => intro merged; simp [contributionOf]
  | cons kr results ih =>
    intro merged
    rw [List.foldl_cons, ih, scoreAt_mergeFold]
    simp only [contributionOf, List.map_cons, List.sum_cons]
    ring

/-- Claim C7.  Every merged match's final score equals the sum over the
searcher result lists of (normalized score times configured kind
weight); the weight defaults to 1.0 when the kind is not configured;
and the sum is not capped to [0, 1] (two searchers at normalized 0.8
with default weights merge to 1.6). -/
theorem mergeResults_weighted_sum :
    (∀ {ι δ : Type} (results : List (SearcherKind × List (EMatch ι δ))) (query : Query),
      ∀ m ∈ mergeResults results query, m.score = contributionOf results query m.id) ∧
    (∀ (query : Query) (kind : SearcherKind),
      assocFind query.options.weights kind = none → weightFor query kind = 1) ∧
    ((mergeResults
        [(SearcherKind.semantic,
          [({ item := 0, score := 0.8, id := 0 } : EMatch ℕ ℕ)]),
         (SearcherKind.tags,
          [({ item := 0, score := 0.8, id := 0 } : EMatch ℕ ℕ)])] {}).map
        (fun m => m.score) = [1.6] ∧ (1 : ℚ) < 1.6) := by
  refine ⟨?_, ?_, ?_, by norm_num⟩
  · intro ι δ results query m hm
    unfold mergeResults at hm
    rcases List.mem_map.mp hm with ⟨p, hp, rfl⟩
    have hid : p.2.id = p.1 := mergeMapOf_entry_id query results [] (by intro p h; cases h) p hp
    have hnodup : (keysOf (mergeMapOf results query)).Nodup :=
      mergeMapOf_nodup query results [] (by simp)
    have hfind : assocFind (mergeMapOf results query) p.1 = some p.2 :=
      assocFind_of_mem_nodup hnodup hp
    have hscore : scoreAt (mergeMapOf results query) p.1 = p.2.score := by
      unfold scoreAt
      rw [hfind]
      rfl
    have := scoreAt_results query p.1 results []
    unfold mergeMapOf at hscore
    rw [hscore] at this
    rw [hid, this]
    simp [scoreAt, assocFind]
  · intro query kind h
    unfold weightFor
    rw [h]
    rfl
  · norm_num +decide [mergeResults, mergeMapOf, mergeStep, weightFor, assocFind,
      assocInsert, List.foldl_cons, List.foldl_nil]

/-- Witness for claim C7 at a concrete input: one searcher list, one
match with score 2 and id 3, no configured weights. -/
theorem mergeResults_weighted_sum_witness :
    ({ item := 5, score := 2, fieldScores := [], details := [], id := 3 } : EMatch ℕ ℕ).score =
      contributionOf [(SearcherKind.tags,
        [({ item := 5, score := 2, id := 3 } : EMatch ℕ ℕ)])] {}
        ({ item := 5, score := 2, fieldScores := [], details := [], id := 3 } : EMatch ℕ ℕ).id ∧
    weightFor {} SearcherKind.fuzzy = 1 :=
  ⟨mergeResults_weighted_sum.1
      [(SearcherKind.tags, [({ item := 5, score := 2, id := 3 } : EMatch ℕ ℕ)])] {}
      { item := 5, score := 2, fieldScores := [], details := [], id := 3 }
      (by norm_num +decide [mergeResults, mergeMapOf, mergeStep, weightFor, assocFind,
        assocInsert, List.foldl_cons, List.foldl_nil]),
   mergeResults_weighted_sum.2.1 {} SearcherKind.fuzzy rfl⟩

/-! ## Claim C2: engine sort order and tie handling -/

theorem mem_insertCmp {α : Type} (cmp : α → α → Ordering) (x z : α) :
    ∀ l : List α, z ∈ insertCmp cmp x l ↔ z = x ∨ z ∈ l := by
  intro l
  induction l with
  | nil => simp [insertCmp]
  | cons y ys ih =>
    by_cases hc : cmp x y = Ordering.gt
    · rw [insertCmp, if_pos hc]
      simp only [List.mem_cons, ih]
      tauto
    · rw [insertCmp, if_neg hc]
      simp only [List.mem_cons]

theorem mem_sortByCmp {α : Type} (cmp : α → α → Ordering) (z : α) :
    ∀ l : List α, z ∈ sortByCmp cmp l ↔ z ∈ l := by
  intro l
  induction l with
  | nil => simp [sortByCmp]
  | cons x xs ih =>
    rw [sortByCmp, mem_insertCmp, ih]
    simp

theorem engineCmp_gt_iff {ι δ : Type} (a b : EMatch ι δ) :
    engineCmp a b = Ordering.gt ↔ a.score < b.score := by
  unfold engineCmp
  exact compare_gt_iff_gt

theorem insertCmp_pairwise_desc {ι δ : Type} (x : EMatch ι δ) :
    ∀ l : List (EMatch ι δ),
      l.Pairwise (fun a b => b.score ≤ a.score) →
      (insertCmp engineCmp x l).Pairwise (fun a b => b.score ≤ a.score) := by
  intro l
  induction l with
  | nil => intro _; simp [insertCmp]
  | cons y ys ih =>
    intro h
    rw [List.pairwise_cons] at h
    by_cases hc : engineCmp x y = Ordering.gt
    · rw [insertCmp, if_pos hc]
      rw [List.pairwise_cons]
      constructor
      · intro z hz
        rcases (mem_insertCmp engineCmp x z ys).mp hz with hz | hz
        · rw [hz]
          exact le_of_lt ((engineCmp_gt_iff x y).mp hc)
        · exact h.1 z hz
      · exact ih h.2
    · rw [insertCmp, if_neg hc]
      have hxy : y.score ≤ x.score := by
        rw [engineCmp_gt_iff] at hc
        exact le_of_not_lt hc
      rw [List.pairwise_cons]
      constructor
      · intro z hz
        rcases List.mem_cons.mp hz with hz | hz
        · rw [hz]; exact hxy
        · exact le_trans (h.1 z hz) hxy
      · exact List.pairwise_cons.mpr h

theorem sortByCmp_pairwise_desc {ι δ : Type} :
    ∀ l : List (EMatch ι δ),
      (sortByCmp engineCmp l).Pairwise (fun a b => b.score ≤ a.score) := by
  intro l
  induction l with
  | nil => simp [sortByCmp]
  | cons x xs ih =>
    rw [sortByCmp]
    exact insertCmp_pairwise_desc x _ ih

theorem filter_insertCmp {ι δ : Type} (P : EMatch ι δ → Bool) (x : EMatch ι δ) :
    ∀ l : List (EMatch ι δ),
      (∀ y ∈ l, P x = true → P y = true → engineCmp x y ≠ Ordering.gt) →
      (insertCmp engineCmp x l).filter P =
        if P x then x :: l.filter P else l.filter P := by
  intro l
  induction l with
  | nil =>
    intro _
    simp only [insertCmp, List.filter_cons, List.filter_nil]
  | cons y ys ih =>
    intro hP
    by_cases hc : engineCmp x y = Ordering.gt
    · rw [insertCmp, if_pos hc]
      by_cases hx : P x = true
      · have hy : ¬ (P y = true) := fun hy => hP y (List.mem_cons.mpr (Or.inl rfl)) hx hy hc
        rw [List.filter_cons, List.filter_cons]
        simp only [hy, Bool.false_eq_true, if_false]
        rw [ih (fun z hz => hP z (List.mem_cons.mpr (Or.inr hz))), if_pos hx]
      · have hx2 : P x = false := by simpa using hx
        rw [List.filter_cons, List.filter_cons]
        rw [ih (fun z hz => hP z (List.mem_cons.mpr (Or.inr hz)))]
        simp only [hx2, Bool.false_eq_true, if_false]
    · rw [insertCmp, if_neg hc]
      rw [List.filter_cons]

theorem filter_sortByCmp {ι δ : Type} (P : EMatch ι δ → Bool) :
    ∀ l : List (EMatch ι δ),
      (∀ x ∈ l, ∀ y ∈ l, P x = true → P y = true → engineCmp x y ≠ Ordering.gt) →
      (sortByCmp engineCmp l).filter P = l.filter P := by
  intro l
  induction l with
  | nil => intro _; rfl
  | cons x xs ih =>
    intro hP
    rw [sortByCmp]
    rw [filter_insertCmp P x (sortByCmp engineCmp xs) (fun y hy hx hyy =>
      hP x (List.mem_cons.mpr (Or.inl rfl)) y
        (List.mem_cons.mpr (Or.inr ((mem_sortByCmp engineCmp y xs).mp hy))) hx hyy)]
    rw [ih (fun a ha b hb hpa hpb =>
      hP a (List.mem_cons.mpr (Or.inr ha)) b (List.mem_cons.mpr (Or.inr hb)) hpa hpb)]
    rw [List.filter_cons]

/-- Claim C2, amended.  For every searcher-output list, query, and
iteration order of the merge map (any permutation of its insertion
order -- HashMap::into_values iterates in an unspecified order), the
engine sort produces a list ordered by final score descending, and
because the sort is stable, matches with exactly equal final scores
appear in the map-iteration order -- which, per the counterexample, is
not necessarily the merge-insertion order the claim states. -/
theorem engineOrder_sorted_stable :
    ∀ {ι δ : Type} (method : NormalizationMethod)
      (allResults : List (SearcherKind × List (EMatch ι δ))) (query : Query)
      (l : List (EMatch ι δ)),
      l.Perm (engineMerged method allResults query) →
      ((engineOrder l).Pairwise (fun a b => b.score ≤ a.score) ∧
       (∀ s : ℚ, (engineOrder l).filter (fun m => m.score == s) =
          l.filter (fun m => m.score == s))) := by
  intro ι δ method allResults query l _
  constructor
  · exact sortByCmp_pairwise_desc l
  · intro s
    unfold engineOrder
    refine filter_sortByCmp _ l ?_
    intro x _ y _ hx hy
    have hxs : x.score = s := by simpa using hx
    have hys : y.score = s := by simpa using hy
    unfold engineCmp
    rw [hxs, hys]
    intro hcmp
    exact absurd (compare_gt_iff_gt.mp hcmp) (lt_irrefl s)

/-- Witness for claim C2 at a concrete input: one searcher list with
two tied matches, iterated in the order opposite to insertion. -/
theorem engineOrder_sorted_stable_witness :
    (engineOrder [({ item := 1, score := 1, fieldScores := [], details := [], id := 1 } :
        EMatch ℕ ℕ),
      { item := 0, score := 1, fieldScores := [], details := [], id := 0 }]).Pairwise
      (fun a b => b.score ≤ a.score) ∧
    (∀ s : ℚ,
      (engineOrder [({ item := 1, score := 1, fieldScores := [], details := [], id := 1 } :
          EMatch ℕ ℕ),
        { item := 0, score := 1, fieldScores := [], details := [], id := 0 }]).filter
        (fun m => m.score == s) =
      ([({ item := 1, score := 1, fieldScores := [], details := [], id := 1 } : EMatch ℕ ℕ),
        { item := 0, score := 1, fieldScores := [], details := [], id := 0 }]).filter
        (fun m => m.score == s)) :=
  engineOrder_sorted_stable .minMax
    [(SearcherKind.tags,
      [({ item := 0, score := 3, id := 0 } : EMatch ℕ ℕ), { item := 1, score := 3, id := 1 }])]
    {} _
    (by
      norm_num +decide [engineMerged, normalizeResults, normalizeList, mergeResults,
        mergeMapOf, mergeStep, weightFor, assocFind, assocInsert, List.foldl_cons,
        List.foldl_nil])

/-- Counterexample for claim C2 as stated: two records tied after
normalization merge in insertion order id 0 then id 1; iterating the
merge map in the reversed order (a permutation HashMap::into_values is
free to produce) and sorting yields id 1 before id 0, so two matches
with exactly equal final scores do not appear in merge-insertion
order. -/
theorem engineOrder_tie_insertion_cex :
    engineMerged .minMax
        [(SearcherKind.tags,
          [({ item := 0, score := 3, id := 0 } : EMatch ℕ ℕ),
           { item := 1, score := 3, id := 1 }])] {} =
      [{ item := 0, score := 1, fieldScores := [], details := [], id := 0 },
       { item := 1, score := 1, fieldScores := [], details := [], id := 1 }] ∧
    ([({ item := 1, score := 1, fieldScores := [], details := [], id := 1 } : EMatch ℕ ℕ),
      { item := 0, score := 1, fieldScores := [], details := [], id := 0 }]).Perm
      (engineMerged .minMax
        [(SearcherKind.tags,
          [({ item := 0, score := 3, id := 0 } : EMatch ℕ ℕ),
           { item := 1, score := 3, id := 1 }])] {}) ∧
    (engineOrder
        [({ item := 1, score := 1, fieldScores := [], details := [], id := 1 } : EMatch ℕ ℕ),
         { item := 0, score := 1, fieldScores := [], details := [], id := 0 }]).map
      (fun m => m.id) = [1, 0] ∧
    (engineMerged .minMax
        [(SearcherKind.tags,
          [({ item := 0, score := 3, id := 0 } : EMatch ℕ ℕ),
           { item := 1, score := 3, id := 1 }])] {}).map (fun m => m.id) = [0, 1] ∧
    (({ item := 1, score := 1, fieldScores := [], details := [], id := 1 } :
        EMatch ℕ ℕ).score =
      ({ item := 0, score := 1, fieldScores := [], details := [], id := 0 } :
        EMatch ℕ ℕ).score) := by
  have hm : engineMerged .minMax
      [(SearcherKind.tags,
        [({ item := 0, score := 3, id := 0 } : EMatch ℕ ℕ),
         { item := 1, score := 3, id := 1 }])] {} =
      [{ item := 0, score := 1, fieldScores := [], details := [], id := 0 },
       { item := 1, score := 1, fieldScores := [], details := [], id := 1 }] := by
    norm_num +decide [engineMerged, normalizeResults, normalizeList, mergeResults,
      mergeMapOf, mergeStep, weightFor, assocFind, assocInsert, List.foldl_cons,
      List.foldl_nil]
  refine ⟨hm, ?_, ?_, ?_, rfl⟩
  · rw [hm]
    exact List.Perm.swap _ _ []
  · norm_num +decide [engineOrder, sortByCmp, insertCmp, engineCmp]
  · rw [hm]
    rfl

/-! ## Claim C1: semantic search and filters -/

/-- match_entity stamps the match with the record's positional index. -/
theorem matchEntitySem_id (lg : ℚ → ℚ) (rules : SemanticRules) (bm : BM25Scorer)
    (item : J) (index : ℕ) (stats : CorpusStats) (qts : List String) (m : SearusMatchS)
    (h : matchEntitySem lg rules bm item index stats qts = some m) : m.id = index := by
  unfold matchEntitySem at h
  dsimp only at h
  split at h
  · simp only [Option.some.injEq] at h
    rw [← h]
  · cases h

/-- Claim C1, amended.  Filters are applied before scoring as far as
the returned matches are concerned: with a filter present, every match
returned by the semantic searcher is a record satisfying the filter.
Corpus statistics however are computed over the full unfiltered slice
(see the counterexample), so a non-matching record still contributes
to document frequencies, total token length and document count. -/
theorem semanticSearch_filters_results (lg : ℚ → ℚ) (rules : SemanticRules)
    (items : List J) (query : Query) (f : FilterExpr) (hf : query.filters = some f) :
    ∀ m ∈ semanticSearch lg rules items query,
      ∃ hlt : m.id < items.length, f.evaluate (items.get ⟨m.id, hlt⟩) = true := by
  intro m hm
  unfold semanticSearch at hm
  rcases ht : query.text with _ | qt
  · rw [ht] at hm; cases hm
  · rw [ht] at hm
    dsimp only at hm
    by_cases hi : items.isEmpty
    · rw [if_pos hi] at hm; cases hm
    · rw [if_neg hi] at hm
      by_cases hq : (tokenize qt).isEmpty
      · rw [if_pos hq] at hm; cases hm
      · rw [if_neg hq] at hm
        rw [mem_sortByCmp] at hm
        rcases List.mem_filterMap.mp hm with ⟨p, hp, hsome⟩
        rcases List.mem_filter.mp hp with ⟨henum, hpass⟩
        have hid : m.id = p.1 := matchEntitySem_id _ _ _ _ _ _ _ _ hsome
        have hgp := List.mem_enum_iff_getElem?.mp henum
        have hlt : p.1 < items.length := by
          by_contra hc
          rw [List.getElem?_eq_none (by omega)] at hgp
          cases hgp
        refine ⟨by omega, ?_⟩
        have hitem : items.get ⟨m.id, by omega⟩ = p.2 := by
          have := List.getElem?_eq_getElem hlt
          rw [this] at hgp
          simp only [Option.some.injEq] at hgp
          simp [hid]
          exact hgp
        rw [hitem]
        rw [hf] at hpass
        simpa using hpass

/-- Counterexample for claim C1 as stated: two records both titled x,
one failing the price filter.  Searching with the filter returns only
the passing record, but its BM25 score is 1.2 (document frequency 2,
two corpus documents, computed over the unfiltered slice) instead of
the 4/3 the spec-modelled filtered statistics give: the filtered-out
record contributed to the corpus statistics. -/
theorem semanticSearch_stats_unfiltered_cex :
    FilterExpr.evaluate c1Filter c1B = false ∧
    (semanticSearch (fun x => x) c1Rules [c1A, c1B] c1Query).map (fun m => (m.id, m.score)) =
      [(0, FP32.fin 1.2)] ∧
    (semanticSearchSpec (fun x => x) c1Rules [c1A, c1B] c1Query).map (fun m => (m.id, m.score)) =
      [(0, FP32.fin (4 / 3))] ∧
    ¬ ((1.2 : ℚ) = 4 / 3) := by
  refine ⟨?_, ?_, ?_, by norm_num⟩
  · norm_num +decide [c1Filter, c1B, FilterExpr.evaluate, compareValues, compareOrdB,
      getFieldValue, getPath, splitDots, J.getKey, assocFind]
  · norm_num +decide [semanticSearch, c1Rules, c1A, c1B, c1Query, c1Filter,
      calculateCorpusStats, matchEntitySem, scoreField, bm25Score, bm25TermScore,
      bm25NormTf, bm25Idf, termFrequencies, tokenize, wordsAux, lcStr, lcChar,
      extractField, getNestedField, getPath, splitDots, J.getKey, assocFind, assocInsert,
      FilterExpr.evaluate, compareValues, compareOrdB, getFieldValue,
      FP32.add, FP32.mul, FP32.div, FP32.ltB, FP32.pcmp, sortByCmp, insertCmp,
      List.foldl_cons, List.foldl_nil, List.filterMap_cons, List.filterMap_nil,
      List.filter_cons, List.filter_nil, List.enum, List.enumFrom]
  · norm_num +decide [semanticSearchSpec, c1Rules, c1A, c1B, c1Query, c1Filter,
      calculateCorpusStats, matchEntitySem, scoreField, bm25Score, bm25TermScore,
      bm25NormTf, bm25Idf, termFrequencies, tokenize, wordsAux, lcStr, lcChar,
      extractField, getNestedField, getPath, splitDots, J.getKey, assocFind, assocInsert,
      FilterExpr.evaluate, compareValues, compareOrdB, getFieldValue,
      FP32.add, FP32.mul, FP32.div, FP32.ltB, FP32.pcmp, sortByCmp, insertCmp,
      List.foldl_cons, List.foldl_nil, List.filterMap_cons, List.filterMap_nil,
      List.filter_cons, List.filter_nil, List.enum, List.enumFrom]

/-- Witness for claim C1 at a concrete input: a single passing record,
a price filter, a tokenized title rule. -/
theorem semanticSearch_filters_results_witness :
    ∃ hlt : c1M.id < ([c1A] : List J).length,
      c1Filter.evaluate (([c1A] : List J).get ⟨c1M.id, hlt⟩) = true :=
  semanticSearch_filters_results (fun x => x) c1RulesT [c1A] c1Query c1Filter rfl c1M
    (by
      norm_num +decide [semanticSearch, c1RulesT, c1A, c1Query, c1Filter, c1M,
        calculateCorpusStats, matchEntitySem, scoreField, termFrequencies, tokenize,
        wordsAux, lcStr, lcChar, extractField, getNestedField, getPath, splitDots,
        J.getKey, assocFind, assocInsert, FilterExpr.evaluate, compareValues, compareOrdB,
        getFieldValue, FP32.add, FP32.mul, FP32.div, FP32.ltB, FP32.pcmp, sortByCmp,
        insertCmp, List.foldl_cons, List.foldl_nil, List.filterMap_cons, List.filterMap_nil,
        List.filter_cons, List.filter_nil, List.enum, List.enumFrom])
